import Mathlib

/- A shallow embedding of the osfs data path: osfs_read and osfs_write of the
   single-block variant (src/lab4/file.c) and of the multi-block bonus
   variant (src/lab4_bonus/file.c), together with the properties claimed of
   them. Machine arithmetic is modelled with Nat (offsets, lengths and byte
   values are non-negative and far below any overflow boundary on the code
   paths modelled here); user-space buffers are fallible byte maps. -/

namespace Osfs

/-- Modelled from the spec: the fixed block size constant BLOCK_SIZE of the
missing osfs.h header (the source comments fix it at 4096). -/
def BLOCK_SIZE : Nat := 4096

/-- Modelled from the spec: the direct-pointer array capacity
MAX_BLOCKS_PER_FILE of the missing osfs.h header (the bonus source comments
fix it at 5 blocks per file). -/
def MAX_BLOCKS_PER_FILE : Nat := 5

/-- Errno value for capacity exhaustion; the code returns -ENOSPC. -/
def ENOSPC : Int := 28

/-- Errno value for a failed user-space copy; the code returns -EFAULT. -/
def EFAULT : Int := 14

/-- Per-file extent map of the multi-block variant: the osfs_inode fields
blocks[MAX_BLOCKS_PER_FILE] (slot value 0 is the UNALLOCATED sentinel),
i_blocks (allocated-block count) and i_size (logical size in bytes). -/
structure OsfsInode where
  blocks : List Nat
  i_blocks : Nat
  i_size : Nat

/-- Per-file state of the single-block variant: the osfs_inode fields
i_block (the single physical block index), i_blocks and i_size. -/
structure Osfs1Inode where
  i_block : Nat
  i_blocks : Nat
  i_size : Nat

/-- Zero-fill of one physical block of the arena:
memset(sb_info.data_blocks + p * BLOCK_SIZE, 0, BLOCK_SIZE). The arena is a
flat byte map from byte address to byte value. -/
def zeroBlock (data : Nat → Nat) (p : Nat) : Nat → Nat :=
  fun a => if p * BLOCK_SIZE ≤ a ∧ a < p * BLOCK_SIZE + BLOCK_SIZE then 0 else data a

/-- copy_from_user into the arena: bytes done, done+1, ..., done+n-1 of the
user buffer land at arena addresses base, base+1, ..., base+n-1. A buf value
of none models an inaccessible user byte; it is read only on the no-fault
path, where it cannot occur. -/
def copyIn (data : Nat → Nat) (base : Nat) (buf : Nat → Option Nat) (done n : Nat) :
    Nat → Nat :=
  fun a => if base ≤ a ∧ a < base + n then (buf (done + (a - base))).getD 0 else data a

/-- The n arena bytes at base, base+1, ..., as copy_to_user delivers them. -/
def segBytes (data : Nat → Nat) (base n : Nat) : List Nat :=
  (List.range n).map fun i => data (base + i)

/-- Length of the current per-block segment:
min(BLOCK_SIZE - offset_in_block, remaining len). -/
def segLen (ppos len : Nat) : Nat :=
  min (BLOCK_SIZE - ppos % BLOCK_SIZE) len

/-- Loop state of osfs_write in the multi-block variant: the position *ppos,
the remaining len, bytes_written so far, the inode, the arena, and the queue
of responses of the external block allocator. Each response is some p (a
granted physical index) or none (the -ENOSPC signal); osfs_alloc_data_block
itself is outside the fragment, so its results enter as this oracle. -/
structure WState where
  ppos : Nat
  len : Nat
  done : Nat
  ino : OsfsInode
  data : Nat → Nat
  allocs : List (Option Nat)

/-- End-of-iteration size update of osfs_write:
if (*ppos > i_size) { i_size = *ppos; }. -/
def sizeBump (ino : OsfsInode) (p : Nat) : OsfsInode :=
  if ino.i_size < p then ⟨ino.blocks, ino.i_blocks, p⟩ else ino

/-- The allocation step inside the multi-block osfs_write loop: record the
granted physical index in the slot for logical block bi, increment i_blocks,
and memset the whole new block to zero. -/
def allocApply (st : WState) (bi p : Nat) (rest : List (Option Nat)) : WState :=
  ⟨st.ppos, st.len, st.done,
   ⟨st.ino.blocks.set bi p, st.ino.i_blocks + 1, st.ino.i_size⟩,
   zeroBlock st.data p, rest⟩

/-- Whether copy_from_user fails for the current write segment (the segment
covers user-buffer bytes done, ..., done + segLen - 1). -/
def segFaults (buf : Nat → Option Nat) (st : WState) : Bool :=
  (List.range (segLen st.ppos st.len)).any fun i => (buf (st.done + i)).isNone

/-- The successful segment transfer of the multi-block osfs_write loop: copy
the segment into the block recorded in the slot for logical block bi, then
advance *ppos, len and bytes_written and update i_size. -/
def segApply (buf : Nat → Option Nat) (st : WState) (bi : Nat) : WState :=
  ⟨st.ppos + segLen st.ppos st.len,
   st.len - segLen st.ppos st.len,
   st.done + segLen st.ppos st.len,
   sizeBump st.ino (st.ppos + segLen st.ppos st.len),
   copyIn st.data (st.ino.blocks.getD bi 0 * BLOCK_SIZE + st.ppos % BLOCK_SIZE)
     buf st.done (segLen st.ppos st.len),
   st.allocs⟩

/-- One iteration of the osfs_write while loop of the multi-block variant:
capacity check against MAX_BLOCKS_PER_FILE, on-demand allocation of the
current logical block, copy_from_user, and the state update. Sum.inl r is an
early return from inside the loop with value r.1 in state r.2. -/
def writeIter (buf : Nat → Option Nat) (st : WState) : (Int × WState) ⊕ WState :=
  if MAX_BLOCKS_PER_FILE ≤ st.ppos / BLOCK_SIZE then
    .inl ((if 0 < st.done then Int.ofNat st.done else -ENOSPC), st)
  else if st.ino.blocks.getD (st.ppos / BLOCK_SIZE) 0 = 0 then
    match st.allocs with
    | some p :: rest =>
      if segFaults buf (allocApply st (st.ppos / BLOCK_SIZE) p rest) then
        .inl (-EFAULT, allocApply st (st.ppos / BLOCK_SIZE) p rest)
      else
        .inr (segApply buf (allocApply st (st.ppos / BLOCK_SIZE) p rest) (st.ppos / BLOCK_SIZE))
    | _ =>
      .inl ((if 0 < st.done then Int.ofNat st.done else -ENOSPC), st)
  else
    if segFaults buf st then .inl (-EFAULT, st)
    else .inr (segApply buf st (st.ppos / BLOCK_SIZE))

/-- The osfs_write while loop. The fuel argument bounds the number of
iterations; every iteration consumes at least one byte of len, so fuel len is
always sufficient, and with fuel 0 the remaining len is 0 and the loop exits
normally. Result (none, st) means the loop ended with len = 0; (some r, st)
is an early return with value r. -/
def writeLoopF (buf : Nat → Option Nat) : Nat → WState → Option Int × WState
  | 0, st => (none, st)
  | n + 1, st =>
    if st.len = 0 then (none, st)
    else
      match writeIter buf st with
      | .inl r => (some r.1, r.2)
      | .inr st' => writeLoopF buf n st'

/-- The osfs_write while loop entered with fuel equal to the remaining len. -/
def writeLoop (buf : Nat → Option Nat) (st : WState) : Option Int × WState :=
  writeLoopF buf st.len st

/-- Result of one write call: the return value, the final *ppos, inode and
arena, the unconsumed allocator responses, and whether the
mtime/ctime/mark_inode_dirty block after the loop was executed. -/
structure WriteOut (I : Type) where
  res : Int
  ppos : Nat
  ino : I
  data : Nat → Nat
  allocs : List (Option Nat)
  touched : Bool

/-- osfs_write of the multi-block variant (src/lab4_bonus/file.c). The
timestamp/dirty update runs exactly when the loop terminates by len = 0; the
early returns inside the loop skip it. -/
def osfs_write (buf : Nat → Option Nat) (ppos len : Nat) (ino : OsfsInode)
    (data : Nat → Nat) (allocs : List (Option Nat)) : WriteOut OsfsInode :=
  match writeLoop buf ⟨ppos, len, 0, ino, data, allocs⟩ with
  | (some r, st) => ⟨r, st.ppos, st.ino, st.data, st.allocs, false⟩
  | (none, st) => ⟨Int.ofNat st.done, st.ppos, st.ino, st.data, st.allocs, true⟩

/-- Read-side clamp of the transfer length to end of file:
if (*ppos + len > i_size) { len = i_size - *ppos; }. -/
def rclamp (sz ppos len : Nat) : Nat :=
  if sz < ppos + len then sz - ppos else len

/-- Loop state of osfs_read in the multi-block variant: *ppos, the remaining
len, bytes_read so far, and the bytes delivered to the user buffer so far. -/
structure RState where
  ppos : Nat
  len : Nat
  done : Nat
  out : List Nat

/-- Whether copy_to_user fails for the current read segment (dstOk j = false
models an inaccessible byte j of the destination user buffer). -/
def rsegFaults (dstOk : Nat → Bool) (st : RState) : Bool :=
  (List.range (segLen st.ppos st.len)).any fun i => !dstOk (st.done + i)

/-- One successful iteration of the osfs_read while loop of the multi-block
variant: deliver the segment read through the slot of the current logical
block and advance *ppos, len and bytes_read. -/
def rsegApply (ino : OsfsInode) (data : Nat → Nat) (st : RState) : RState :=
  ⟨st.ppos + segLen st.ppos st.len,
   st.len - segLen st.ppos st.len,
   st.done + segLen st.ppos st.len,
   st.out ++ segBytes data
     (ino.blocks.getD (st.ppos / BLOCK_SIZE) 0 * BLOCK_SIZE + st.ppos % BLOCK_SIZE)
     (segLen st.ppos st.len)⟩

/-- The osfs_read while loop of the multi-block variant, fuel-bounded exactly
as writeLoopF. -/
def readLoopF (dstOk : Nat → Bool) (ino : OsfsInode) (data : Nat → Nat) :
    Nat → RState → Option Int × RState
  | 0, st => (none, st)
  | n + 1, st =>
    if st.len = 0 then (none, st)
    else if rsegFaults dstOk st then (some (-EFAULT), st)
    else readLoopF dstOk ino data n (rsegApply ino data st)

/-- Result of one read call: return value, final *ppos, the bytes delivered
to the user buffer, the (untouched) inode and arena, and whether any
timestamp/dirty update ran (osfs_read contains none). -/
structure ReadOut (I : Type) where
  res : Int
  ppos : Nat
  out : List Nat
  ino : I
  data : Nat → Nat
  touched : Bool

/-- osfs_read of the multi-block variant (src/lab4_bonus/file.c). -/
def osfs_read (dstOk : Nat → Bool) (ppos len : Nat) (ino : OsfsInode)
    (data : Nat → Nat) : ReadOut OsfsInode :=
  if ino.i_size ≤ ppos then ⟨0, ppos, [], ino, data, false⟩
  else
    match readLoopF dstOk ino data (rclamp ino.i_size ppos len)
        ⟨ppos, rclamp ino.i_size ppos len, 0, []⟩ with
    | (some r, st) => ⟨r, st.ppos, st.out, ino, data, false⟩
    | (none, st) => ⟨Int.ofNat st.done, st.ppos, st.out, ino, data, false⟩

/-- osfs_read of the single-block variant (src/lab4/file.c): empty-file
check, end-of-file check, clamp, one copy_to_user. -/
def osfs1_read (dstOk : Nat → Bool) (ppos len : Nat) (ino : Osfs1Inode)
    (data : Nat → Nat) : ReadOut Osfs1Inode :=
  if ino.i_blocks = 0 then ⟨0, ppos, [], ino, data, false⟩
  else if ino.i_size ≤ ppos then ⟨0, ppos, [], ino, data, false⟩
  else
    if (List.range (rclamp ino.i_size ppos len)).any (fun i => !dstOk i) then
      ⟨-EFAULT, ppos, [], ino, data, false⟩
    else
      ⟨Int.ofNat (rclamp ino.i_size ppos len),
       ppos + rclamp ino.i_size ppos len,
       segBytes data (ino.i_block * BLOCK_SIZE + ppos) (rclamp ino.i_size ppos len),
       ino, data, false⟩

/-- Write-side clamp of the single-block variant to its one block:
if (*ppos + len > BLOCK_SIZE) { len = BLOCK_SIZE - *ppos; }. -/
def clamp1 (ppos len : Nat) : Nat :=
  if BLOCK_SIZE < ppos + len then BLOCK_SIZE - ppos else len

/-- Steps 3 to 6 of the single-block osfs_write, after the allocation step:
capacity check, clamp, copy_from_user, *ppos advance, size update, and the
timestamp/dirty update. -/
def osfs1_write_tail (buf : Nat → Option Nat) (ppos len : Nat) (ino : Osfs1Inode)
    (data : Nat → Nat) (allocs : List (Option Nat)) : WriteOut Osfs1Inode :=
  if BLOCK_SIZE ≤ ppos then ⟨-ENOSPC, ppos, ino, data, allocs, false⟩
  else if (List.range (clamp1 ppos len)).any (fun i => (buf i).isNone) then
    ⟨-EFAULT, ppos, ino, data, allocs, false⟩
  else
    ⟨Int.ofNat (clamp1 ppos len),
     ppos + clamp1 ppos len,
     (if ino.i_size < ppos + clamp1 ppos len then
        ⟨ino.i_block, ino.i_blocks, ppos + clamp1 ppos len⟩ else ino),
     copyIn data (ino.i_block * BLOCK_SIZE + ppos) buf 0 (clamp1 ppos len),
     allocs, true⟩

/-- osfs_write of the single-block variant (src/lab4/file.c): if i_blocks is
0, first allocate the single data block (zero-filling it) before any bounds
check; an allocator -ENOSPC there is returned directly. -/
def osfs1_write (buf : Nat → Option Nat) (ppos len : Nat) (ino : Osfs1Inode)
    (data : Nat → Nat) (allocs : List (Option Nat)) : WriteOut Osfs1Inode :=
  if ino.i_blocks = 0 then
    match allocs with
    | some p :: rest =>
      osfs1_write_tail buf ppos len ⟨p, 1, ino.i_size⟩ (zeroBlock data p) rest
    | _ => ⟨-ENOSPC, ppos, ino, data, allocs, false⟩
  else osfs1_write_tail buf ppos len ino data allocs

/-- Logical block count occupied by a file of the given size:
ceil(size / BLOCK_SIZE). -/
def ceilBlocks (sz : Nat) : Nat := (sz + BLOCK_SIZE - 1) / BLOCK_SIZE

/-- No-hole property of an extent map: every logical block index below
ceil(i_size / BLOCK_SIZE) holds a non-sentinel (allocated) slot. -/
def noHole (ino : OsfsInode) : Prop :=
  ∀ i, i < ceilBlocks ino.i_size → ino.blocks.getD i 0 ≠ 0

/-- A file-system state for the multi-block variant: one file's extent map
and the block arena. -/
structure FS where
  ino : OsfsInode
  data : Nat → Nat

/-- A fresh extent map: logical size 0, allocated count 0, every one of the
MAX_BLOCKS_PER_FILE slots unallocated. -/
def freshInode : OsfsInode := ⟨List.replicate MAX_BLOCKS_PER_FILE 0, 0, 0⟩

/-- States reachable from a fresh extent map by osfs_read and osfs_write
calls of the multi-block variant. Allocator responses are arbitrary subject
to the allocator contract (a granted index is nonzero and is not already one
of this file's slots). With strict = true every write starts at or below the
current i_size; with strict = false write offsets are unrestricted. -/
inductive Reach : Bool → FS → Prop where
  | init (strict : Bool) (d0 : Nat → Nat) : Reach strict ⟨freshInode, d0⟩
  | wr (strict : Bool) (s : FS) (buf : Nat → Option Nat) (ppos len : Nat)
      (allocs : List (Option Nat)) (h : Reach strict s)
      (halloc : ∀ p, some p ∈ allocs → p ≠ 0 ∧ p ∉ s.ino.blocks)
      (hstrict : strict = true → ppos ≤ s.ino.i_size) :
      Reach strict ⟨(osfs_write buf ppos len s.ino s.data allocs).ino,
                    (osfs_write buf ppos len s.ino s.data allocs).data⟩
  | rd (strict : Bool) (s : FS) (dstOk : Nat → Bool) (ppos len : Nat)
      (h : Reach strict s) :
      Reach strict ⟨(osfs_read dstOk ppos len s.ino s.data).ino,
                    (osfs_read dstOk ppos len s.ino s.data).data⟩

/-- Pairwise distinctness of the allocated slots of an extent map: the core
never holds the same physical index in two logical slots. -/
def Distinct (ino : OsfsInode) : Prop :=
  ∀ i j, i < MAX_BLOCKS_PER_FILE → j < MAX_BLOCKS_PER_FILE → i ≠ j →
    ino.blocks.getD i 0 ≠ 0 → ino.blocks.getD i 0 ≠ ino.blocks.getD j 0


/-- Size and return-value bookkeeping of the multi-block write loop, relative
to its entry state st, for exit value r1 and exit state st1: i_size never
shrinks; a normal loop exit (r1 = none) wrote the whole remaining length and
grew i_size to max(old, ppos+len); an early byte count equals the final
bytes_written and exceeds the entry count only together with the matching
i_size growth; early error values are -ENOSPC or -EFAULT. -/
def SizeP (st : WState) (r1 : Option Int) (st1 : WState) : Prop :=
  st.ino.i_size ≤ st1.ino.i_size
  ∧ (r1 = none → st1.done = st.done + st.len
      ∧ (st.len ≠ 0 → st1.ino.i_size = max st.ino.i_size (st.ppos + st.len))
      ∧ (st.len = 0 → st1 = st))
  ∧ (∀ r0, r1 = some r0 →
      (r0 = -ENOSPC ∨ r0 = -EFAULT ∨ ∃ m, r0 = Int.ofNat m ∧ m < st.done + st.len)
      ∧ (∀ m, r0 = Int.ofNat m →
          m = st1.done ∧ st.done ≤ m
          ∧ (st.done < m →
              st1.ino.i_size = max st.ino.i_size (st.ppos + (m - st.done)))
          ∧ (m = st.done → st1.ino.i_size = st.ino.i_size)))

/-- Postcondition of a full run of the multi-block write loop from state st
that consumes fresh allocator grants drawn from L: the loop exits normally
having written all of len, i_size grows to max(old, ppos+len), slots below
the starting block are untouched, every changed slot was unallocated and now
holds a grant from L, every written logical position reads back (through the
final extent map) as the corresponding user byte, and arena bytes outside
the touched blocks are unchanged. -/
structure WPost (buf : Nat → Option Nat) (st : WState) (L : List Nat)
    (r1 : Option Int) (st1 : WState) : Prop where
  rnone : r1 = none
  done : st1.done = st.done + st.len
  ppos : st1.ppos = st.ppos + st.len
  blen : st1.ino.blocks.length = MAX_BLOCKS_PER_FILE
  dist : Distinct st1.ino
  size : st1.ino.i_size = max st.ino.i_size (st.ppos + st.len)
  slotsLow : ∀ i, i < st.ppos / BLOCK_SIZE →
    st1.ino.blocks.getD i 0 = st.ino.blocks.getD i 0
  slotsNew : ∀ i, st1.ino.blocks.getD i 0 ≠ st.ino.blocks.getD i 0 →
    st.ino.blocks.getD i 0 = 0 ∧ st1.ino.blocks.getD i 0 ∈ L
  dataMain : ∀ q, st.ppos ≤ q → q < st.ppos + st.len →
    st1.data (st1.ino.blocks.getD (q / BLOCK_SIZE) 0 * BLOCK_SIZE + q % BLOCK_SIZE)
      = (buf (st.done + (q - st.ppos))).getD 0
  dataFrame : ∀ a,
    (∀ q, st.ppos ≤ q → q < st.ppos + st.len →
      ¬ (st1.ino.blocks.getD (q / BLOCK_SIZE) 0 * BLOCK_SIZE ≤ a
         ∧ a < st1.ino.blocks.getD (q / BLOCK_SIZE) 0 * BLOCK_SIZE + BLOCK_SIZE)) →
    st1.data a = st.data a

theorem BS_pos : 0 < BLOCK_SIZE := by decide

theorem off_lt (p : Nat) : p % BLOCK_SIZE < BLOCK_SIZE := Nat.mod_lt p BS_pos

theorem segLen_le_len (ppos len : Nat) : segLen ppos len ≤ len := Nat.min_le_right _ _

theorem segLen_pos (ppos : Nat) {len : Nat} (h : len ≠ 0) : 0 < segLen ppos len := by
  have h1 := off_lt ppos
  have h2 : 0 < len := Nat.pos_of_ne_zero h
  unfold segLen
  omega

theorem segLen_off (ppos len : Nat) : ppos % BLOCK_SIZE + segLen ppos len ≤ BLOCK_SIZE := by
  have h1 := off_lt ppos
  unfold segLen
  omega

theorem ppos_decomp (p : Nat) : BLOCK_SIZE * (p / BLOCK_SIZE) + p % BLOCK_SIZE = p :=
  Nat.div_add_mod p BLOCK_SIZE

theorem seg_end_le (ppos len : Nat) :
    ppos + segLen ppos len ≤ (ppos / BLOCK_SIZE + 1) * BLOCK_SIZE := by
  have h1 := ppos_decomp ppos
  have h2 := segLen_off ppos len
  have h3 : (ppos / BLOCK_SIZE + 1) * BLOCK_SIZE
      = BLOCK_SIZE * (ppos / BLOCK_SIZE) + BLOCK_SIZE := by ring
  omega

theorem div_in_seg {ppos len q : Nat} (h1 : ppos ≤ q) (h2 : q < ppos + segLen ppos len) :
    q / BLOCK_SIZE = ppos / BLOCK_SIZE ∧ q % BLOCK_SIZE = ppos % BLOCK_SIZE + (q - ppos) := by
  have hd := ppos_decomp ppos
  have ho := segLen_off ppos len
  have hq : q = BLOCK_SIZE * (ppos / BLOCK_SIZE) + (ppos % BLOCK_SIZE + (q - ppos)) := by omega
  have hr : ppos % BLOCK_SIZE + (q - ppos) < BLOCK_SIZE := by omega
  constructor
  · conv_lhs => rw [hq]
    rw [Nat.mul_add_div BS_pos, Nat.div_eq_of_lt hr]
    omega
  · conv_lhs => rw [hq]
    rw [Nat.mul_add_mod, Nat.mod_eq_of_lt hr]

theorem cont_full {ppos len : Nat} (h : len - segLen ppos len ≠ 0) :
    ppos + segLen ppos len = (ppos / BLOCK_SIZE + 1) * BLOCK_SIZE := by
  have h1 := ppos_decomp ppos
  have h2 := off_lt ppos
  have h3 : (ppos / BLOCK_SIZE + 1) * BLOCK_SIZE
      = BLOCK_SIZE * (ppos / BLOCK_SIZE) + BLOCK_SIZE := by ring
  unfold segLen at *
  rcases Nat.le_total (BLOCK_SIZE - ppos % BLOCK_SIZE) len with hm | hm
  · rw [Nat.min_eq_left hm] at *
    omega
  · rw [Nat.min_eq_right hm] at h
    omega

theorem div_of_inBlock {p a : Nat} (h1 : p * BLOCK_SIZE ≤ a)
    (h2 : a < p * BLOCK_SIZE + BLOCK_SIZE) : a / BLOCK_SIZE = p :=
  Nat.div_eq_of_lt_le h1 (by rw [Nat.succ_mul]; omega)

theorem getD_set (l : List Nat) (k v i : Nat) :
    (l.set k v).getD i 0 = if k = i ∧ k < l.length then v else l.getD i 0 := by
  induction l generalizing k i with
  | nil => simp
  | cons a t ih =>
    cases k with
    | zero => cases i <;> simp
    | succ k =>
      cases i with
      | zero => simp
      | succ i =>
        simp only [List.set, List.getD_cons_succ, List.length_cons, ih]
        exact if_congr (by omega) rfl rfl

theorem getD_mem (l : List Nat) (i : Nat) (h : i < l.length) : l.getD i 0 ∈ l := by
  induction l generalizing i with
  | nil => simp at h
  | cons a t ih =>
    cases i with
    | zero => simp
    | succ i =>
      simp only [List.getD_cons_succ]
      exact List.mem_cons_of_mem a (ih i (by simpa using h))

theorem bi_lt_of_lt {ppos : Nat} (h : ppos < MAX_BLOCKS_PER_FILE * BLOCK_SIZE) :
    ppos / BLOCK_SIZE < MAX_BLOCKS_PER_FILE :=
  (Nat.div_lt_iff_lt_mul BS_pos).mpr h

theorem bi_ge_of_ge {ppos : Nat} (h : MAX_BLOCKS_PER_FILE * BLOCK_SIZE ≤ ppos) :
    MAX_BLOCKS_PER_FILE ≤ ppos / BLOCK_SIZE :=
  (Nat.le_div_iff_mul_le BS_pos).mpr h

theorem sizeBump_size (ino : OsfsInode) (p : Nat) :
    (sizeBump ino p).i_size = max ino.i_size p := by
  unfold sizeBump; split <;> simp <;> omega

theorem sizeBump_blocks (ino : OsfsInode) (p : Nat) :
    (sizeBump ino p).blocks = ino.blocks := by
  unfold sizeBump; split <;> rfl

theorem sizeBump_count (ino : OsfsInode) (p : Nat) :
    (sizeBump ino p).i_blocks = ino.i_blocks := by
  unfold sizeBump; split <;> rfl


theorem writeIter_cap (buf : Nat → Option Nat) (st : WState)
    (h : MAX_BLOCKS_PER_FILE ≤ st.ppos / BLOCK_SIZE) :
    writeIter buf st = .inl ((if 0 < st.done then Int.ofNat st.done else -ENOSPC), st) := by
  unfold writeIter
  rw [if_pos h]

theorem writeIter_allocFail (buf : Nat → Option Nat) (st : WState)
    (h1 : st.ppos / BLOCK_SIZE < MAX_BLOCKS_PER_FILE)
    (h2 : st.ino.blocks.getD (st.ppos / BLOCK_SIZE) 0 = 0)
    (h3 : st.allocs = [] ∨ ∃ rest, st.allocs = none :: rest) :
    writeIter buf st = .inl ((if 0 < st.done then Int.ofNat st.done else -ENOSPC), st) := by
  unfold writeIter
  rw [if_neg (by omega), if_pos h2]
  rcases h3 with h3 | ⟨rest, h3⟩ <;> rw [h3]

theorem writeIter_allocFault (buf : Nat → Option Nat) (st : WState) (p : Nat)
    (rest : List (Option Nat))
    (h1 : st.ppos / BLOCK_SIZE < MAX_BLOCKS_PER_FILE)
    (h2 : st.ino.blocks.getD (st.ppos / BLOCK_SIZE) 0 = 0)
    (h3 : st.allocs = some p :: rest)
    (h4 : segFaults buf (allocApply st (st.ppos / BLOCK_SIZE) p rest) = true) :
    writeIter buf st = .inl (-EFAULT, allocApply st (st.ppos / BLOCK_SIZE) p rest) := by
  unfold writeIter
  rw [if_neg (by omega), if_pos h2, h3]
  simp only [h4, if_true]

theorem writeIter_allocCont (buf : Nat → Option Nat) (st : WState) (p : Nat)
    (rest : List (Option Nat))
    (h1 : st.ppos / BLOCK_SIZE < MAX_BLOCKS_PER_FILE)
    (h2 : st.ino.blocks.getD (st.ppos / BLOCK_SIZE) 0 = 0)
    (h3 : st.allocs = some p :: rest)
    (h4 : segFaults buf (allocApply st (st.ppos / BLOCK_SIZE) p rest) = false) :
    writeIter buf st
      = .inr (segApply buf (allocApply st (st.ppos / BLOCK_SIZE) p rest)
          (st.ppos / BLOCK_SIZE)) := by
  unfold writeIter
  rw [if_neg (by omega), if_pos h2, h3]
  simp only [h4, Bool.false_eq_true, if_false]

theorem writeIter_fault (buf : Nat → Option Nat) (st : WState)
    (h1 : st.ppos / BLOCK_SIZE < MAX_BLOCKS_PER_FILE)
    (h2 : st.ino.blocks.getD (st.ppos / BLOCK_SIZE) 0 ≠ 0)
    (h4 : segFaults buf st = true) :
    writeIter buf st = .inl (-EFAULT, st) := by
  unfold writeIter
  rw [if_neg (by omega), if_neg h2]
  simp only [h4, if_true]

theorem writeIter_cont (buf : Nat → Option Nat) (st : WState)
    (h1 : st.ppos / BLOCK_SIZE < MAX_BLOCKS_PER_FILE)
    (h2 : st.ino.blocks.getD (st.ppos / BLOCK_SIZE) 0 ≠ 0)
    (h4 : segFaults buf st = false) :
    writeIter buf st = .inr (segApply buf st (st.ppos / BLOCK_SIZE)) := by
  unfold writeIter
  rw [if_neg (by omega), if_neg h2]
  simp only [h4, Bool.false_eq_true, if_false]

theorem writeLoopF_len0 (buf : Nat → Option Nat) (n : Nat) (st : WState)
    (h : st.len = 0) : writeLoopF buf n st = (none, st) := by
  cases n <;> simp [writeLoopF, h]

theorem writeLoopF_succ (buf : Nat → Option Nat) (n : Nat) (st : WState)
    (h : st.len ≠ 0) :
    writeLoopF buf (n + 1) st
      = match writeIter buf st with
        | .inl r => (some r.1, r.2)
        | .inr st' => writeLoopF buf n st' := by
  simp [writeLoopF, h]


theorem sizeP_none (st : WState) (h0 : st.len = 0) : SizeP st none st := by
  unfold SizeP
  exact ⟨Nat.le_refl _, fun _ => ⟨by omega, fun h => absurd h0 h, fun _ => rfl⟩,
    fun r0 hr0 => absurd hr0 (by simp)⟩

theorem sizeP_stop (st stE : WState) (h0 : st.len ≠ 0) (hd : stE.done = st.done)
    (hs : stE.ino.i_size = st.ino.i_size) :
    SizeP st (some (if 0 < st.done then Int.ofNat st.done else -ENOSPC)) stE := by
  have hE : (ENOSPC : Int) = 28 := rfl
  unfold SizeP
  refine ⟨by omega, by simp, ?_⟩
  intro r0 hr0
  have hr0' : r0 = if 0 < st.done then Int.ofNat st.done else -ENOSPC :=
    (Option.some.inj hr0).symm
  by_cases hdone : 0 < st.done
  · rw [if_pos hdone] at hr0'
    subst hr0'
    refine ⟨Or.inr (Or.inr ⟨st.done, rfl, by omega⟩), ?_⟩
    intro m hm
    have hm' : st.done = m := Int.ofNat.inj hm
    refine ⟨by omega, by omega, fun hlt => absurd hlt (by omega), fun _ => hs⟩
  · rw [if_neg hdone] at hr0'
    subst hr0'
    refine ⟨Or.inl rfl, ?_⟩
    intro m hm
    exfalso
    rw [show (-ENOSPC : Int) = -28 from rfl, Int.ofNat_eq_natCast] at hm
    omega

theorem sizeP_fault (st stE : WState) (hs : stE.ino.i_size = st.ino.i_size) :
    SizeP st (some (-EFAULT)) stE := by
  have hF : (EFAULT : Int) = 14 := rfl
  unfold SizeP
  refine ⟨by omega, by simp, ?_⟩
  intro r0 hr0
  have hr0' : r0 = -EFAULT := (Option.some.inj hr0).symm
  subst hr0'
  refine ⟨Or.inr (Or.inl rfl), ?_⟩
  intro m hm
  exfalso
  rw [show (-EFAULT : Int) = -14 from rfl, Int.ofNat_eq_natCast] at hm
  omega

theorem sizeP_comp (st st2 : WState) (r1 : Option Int) (st1 : WState)
    (h0 : st.len ≠ 0)
    (e1 : st2.len = st.len - segLen st.ppos st.len)
    (e2 : st2.done = st.done + segLen st.ppos st.len)
    (e3 : st2.ppos = st.ppos + segLen st.ppos st.len)
    (e4 : st2.ino.i_size = max st.ino.i_size (st.ppos + segLen st.ppos st.len))
    (ih : SizeP st2 r1 st1) : SizeP st r1 st1 := by
  obtain ⟨a, b, c⟩ := ih
  have hL1 : 0 < segLen st.ppos st.len := segLen_pos st.ppos h0
  have hL2 : segLen st.ppos st.len ≤ st.len := segLen_le_len st.ppos st.len
  unfold SizeP
  refine ⟨by omega, ?_, ?_⟩
  · intro hn
    obtain ⟨b1, b2, b3⟩ := b hn
    clear b c
    refine ⟨by omega, fun _ => ?_, fun h => absurd h h0⟩
    by_cases hz : st2.len = 0
    · rw [b3 hz] at *
      rw [e4]
      omega
    · rw [b2 hz, e4, e3]
      omega
  · intro r0 hr0
    obtain ⟨c1, c2⟩ := c r0 hr0
    clear b c
    constructor
    · rcases c1 with h | h | ⟨m, hm, hlt⟩
      · exact Or.inl h
      · exact Or.inr (Or.inl h)
      · exact Or.inr (Or.inr ⟨m, hm, by omega⟩)
    · intro m hm
      obtain ⟨d1, d2, d3, d4⟩ := c2 m hm
      clear c1 c2
      refine ⟨d1, by omega, ?_, fun hme => absurd hme (by omega)⟩
      intro hlt
      by_cases he : st2.done < m
      · rw [d3 he, e4, e3]
        omega
      · rw [d4 (by omega), e4]
        omega

theorem writeLoopF_sizeP (buf : Nat → Option Nat) :
    ∀ (n : Nat) (st : WState), st.len ≤ n →
      SizeP st (writeLoopF buf n st).1 (writeLoopF buf n st).2 := by
  intro n
  induction n with
  | zero =>
    intro st hle
    have h0 : st.len = 0 := by omega
    rw [writeLoopF_len0 buf 0 st h0]
    exact sizeP_none st h0
  | succ n ih =>
    intro st hle
    by_cases h0 : st.len = 0
    · rw [writeLoopF_len0 buf _ st h0]
      exact sizeP_none st h0
    · rw [writeLoopF_succ buf n st h0]
      have hL1 : 0 < segLen st.ppos st.len := segLen_pos st.ppos h0
      have hL2 : segLen st.ppos st.len ≤ st.len := segLen_le_len st.ppos st.len
      by_cases hcap : MAX_BLOCKS_PER_FILE ≤ st.ppos / BLOCK_SIZE
      · rw [writeIter_cap buf st hcap]
        exact sizeP_stop st st h0 rfl rfl
      · have hcap' : st.ppos / BLOCK_SIZE < MAX_BLOCKS_PER_FILE := by omega
        by_cases hslot : st.ino.blocks.getD (st.ppos / BLOCK_SIZE) 0 = 0
        · rcases hA : st.allocs with _ | ⟨a, rest⟩
          · rw [writeIter_allocFail buf st hcap' hslot (Or.inl hA)]
            exact sizeP_stop st st h0 rfl rfl
          · rcases a with _ | p
            · rw [writeIter_allocFail buf st hcap' hslot (Or.inr ⟨rest, hA⟩)]
              exact sizeP_stop st st h0 rfl rfl
            · by_cases hf : segFaults buf (allocApply st (st.ppos / BLOCK_SIZE) p rest) = true
              · rw [writeIter_allocFault buf st p rest hcap' hslot hA hf]
                exact sizeP_fault st _ rfl
              · rw [writeIter_allocCont buf st p rest hcap' hslot hA
                  (Bool.not_eq_true _ ▸ hf)]
                have hlen2 :
                    (segApply buf (allocApply st (st.ppos / BLOCK_SIZE) p rest)
                      (st.ppos / BLOCK_SIZE)).len ≤ n := by
                  simp only [segApply, allocApply]
                  omega
                refine sizeP_comp st _ _ _ h0 ?_ ?_ ?_ ?_ (ih _ hlen2)
                · simp [segApply, allocApply]
                · simp [segApply, allocApply]
                · simp [segApply, allocApply]
                · simp [segApply, allocApply, sizeBump_size]
        · by_cases hf : segFaults buf st = true
          · rw [writeIter_fault buf st hcap' hslot hf]
            exact sizeP_fault st st rfl
          · rw [writeIter_cont buf st hcap' hslot (Bool.not_eq_true _ ▸ hf)]
            have hlen2 : (segApply buf st (st.ppos / BLOCK_SIZE)).len ≤ n := by
              simp only [segApply]
              omega
            refine sizeP_comp st _ _ _ h0 ?_ ?_ ?_ ?_ (ih _ hlen2)
            · simp [segApply]
            · simp [segApply]
            · simp [segApply]
            · simp [segApply, sizeBump_size]


theorem ceilBlocks_lt_iff (sz i : Nat) : i < ceilBlocks sz ↔ i * BLOCK_SIZE < sz := by
  have h1 : i + 1 ≤ (sz + BLOCK_SIZE - 1) / BLOCK_SIZE
      ↔ (i + 1) * BLOCK_SIZE ≤ sz + BLOCK_SIZE - 1 := Nat.le_div_iff_mul_le BS_pos
  have h2 : (i + 1) * BLOCK_SIZE = i * BLOCK_SIZE + BLOCK_SIZE := by ring
  have h3 : 0 < BLOCK_SIZE := BS_pos
  unfold ceilBlocks
  omega

theorem noHole_alloc (st : WState) (p : Nat) (rest : List (Option Nat))
    (hnh : noHole st.ino)
    (hslot : st.ino.blocks.getD (st.ppos / BLOCK_SIZE) 0 = 0) :
    noHole (allocApply st (st.ppos / BLOCK_SIZE) p rest).ino := by
  intro i hi
  have hi' : i < ceilBlocks st.ino.i_size := by simpa [allocApply] using hi
  show (allocApply st (st.ppos / BLOCK_SIZE) p rest).ino.blocks.getD i 0 ≠ 0
  simp only [allocApply]
  rw [getD_set]
  by_cases hc : st.ppos / BLOCK_SIZE = i ∧ st.ppos / BLOCK_SIZE < st.ino.blocks.length
  · rw [if_pos hc]
    obtain ⟨h1, _⟩ := hc
    subst h1
    exact absurd hslot (hnh _ hi')
  · rw [if_neg hc]
    exact hnh i hi'

theorem noHole_seg (buf : Nat → Option Nat) (st1 : WState) (hnh : noHole st1.ino)
    (hpos : st1.ppos ≤ st1.ino.i_size)
    (hslot : st1.ino.blocks.getD (st1.ppos / BLOCK_SIZE) 0 ≠ 0) :
    noHole (segApply buf st1 (st1.ppos / BLOCK_SIZE)).ino := by
  intro i hi
  have hb : (segApply buf st1 (st1.ppos / BLOCK_SIZE)).ino.blocks = st1.ino.blocks := by
    simp [segApply, sizeBump_blocks]
  have hs : (segApply buf st1 (st1.ppos / BLOCK_SIZE)).ino.i_size
      = max st1.ino.i_size (st1.ppos + segLen st1.ppos st1.len) := by
    simp [segApply, sizeBump_size]
  rw [hb]
  rw [hs] at hi
  rw [ceilBlocks_lt_iff] at hi
  by_cases hc : i * BLOCK_SIZE < st1.ino.i_size
  · exact hnh i ((ceilBlocks_lt_iff _ _).mpr hc)
  · have h1 : st1.ppos ≤ i * BLOCK_SIZE := by omega
    have h3 : st1.ppos / BLOCK_SIZE ≤ i := by
      calc st1.ppos / BLOCK_SIZE ≤ i * BLOCK_SIZE / BLOCK_SIZE := Nat.div_le_div_right h1
        _ = i := Nat.mul_div_left i BS_pos
    have h4 := seg_end_le st1.ppos st1.len
    have h6 : i < st1.ppos / BLOCK_SIZE + 1 := by
      by_contra hcon
      push_neg at hcon
      have := Nat.mul_le_mul_right BLOCK_SIZE hcon
      omega
    have h7 : i = st1.ppos / BLOCK_SIZE := by omega
    rw [h7]
    exact hslot

theorem writeLoopF_noHole (buf : Nat → Option Nat) :
    ∀ (n : Nat) (st : WState), st.len ≤ n →
      st.ino.blocks.length = MAX_BLOCKS_PER_FILE →
      noHole st.ino → st.ppos ≤ st.ino.i_size →
      (∀ p, some p ∈ st.allocs → p ≠ 0) →
      (writeLoopF buf n st).2.ino.blocks.length = MAX_BLOCKS_PER_FILE
      ∧ noHole (writeLoopF buf n st).2.ino := by
  intro n
  induction n with
  | zero =>
    intro st hle hlen hnh hpos halloc
    have h0 : st.len = 0 := by omega
    rw [writeLoopF_len0 buf 0 st h0]
    exact ⟨hlen, hnh⟩
  | succ n ih =>
    intro st hle hlen hnh hpos halloc
    by_cases h0 : st.len = 0
    · rw [writeLoopF_len0 buf _ st h0]
      exact ⟨hlen, hnh⟩
    · rw [writeLoopF_succ buf n st h0]
      have hL1 : 0 < segLen st.ppos st.len := segLen_pos st.ppos h0
      have hL2 : segLen st.ppos st.len ≤ st.len := segLen_le_len st.ppos st.len
      by_cases hcap : MAX_BLOCKS_PER_FILE ≤ st.ppos / BLOCK_SIZE
      · rw [writeIter_cap buf st hcap]
        exact ⟨hlen, hnh⟩
      · have hcap' : st.ppos / BLOCK_SIZE < MAX_BLOCKS_PER_FILE := by omega
        by_cases hslot : st.ino.blocks.getD (st.ppos / BLOCK_SIZE) 0 = 0
        · rcases hA : st.allocs with _ | ⟨a, rest⟩
          · rw [writeIter_allocFail buf st hcap' hslot (Or.inl hA)]
            exact ⟨hlen, hnh⟩
          · rcases a with _ | p
            · rw [writeIter_allocFail buf st hcap' hslot (Or.inr ⟨rest, hA⟩)]
              exact ⟨hlen, hnh⟩
            · have hp0 : p ≠ 0 := halloc p (by rw [hA]; exact List.mem_cons_self _ _)
              have hlen1 : (allocApply st (st.ppos / BLOCK_SIZE) p rest).ino.blocks.length
                  = MAX_BLOCKS_PER_FILE := by
                simp [allocApply, hlen]
              have hnh1 : noHole (allocApply st (st.ppos / BLOCK_SIZE) p rest).ino :=
                noHole_alloc st p rest hnh hslot
              by_cases hf : segFaults buf (allocApply st (st.ppos / BLOCK_SIZE) p rest) = true
              · rw [writeIter_allocFault buf st p rest hcap' hslot hA hf]
                exact ⟨hlen1, hnh1⟩
              · rw [writeIter_allocCont buf st p rest hcap' hslot hA
                  (Bool.not_eq_true _ ▸ hf)]
                set st1 := allocApply st (st.ppos / BLOCK_SIZE) p rest with hst1
                have e1 : st1.ppos = st.ppos := by simp [hst1, allocApply]
                have e2 : st1.len = st.len := by simp [hst1, allocApply]
                have e3 : st1.ino.i_size = st.ino.i_size := by simp [hst1, allocApply]
                have hslot1 : st1.ino.blocks.getD (st1.ppos / BLOCK_SIZE) 0 ≠ 0 := by
                  simp only [hst1, allocApply]
                  rw [getD_set]
                  rw [if_pos ⟨rfl, by omega⟩]
                  exact hp0
                refine ih (segApply buf st1 (st1.ppos / BLOCK_SIZE)) ?_ ?_ ?_ ?_ ?_
                · simp only [segApply]
                  rw [e1, e2]
                  omega
                · simp [segApply, sizeBump_blocks, hlen1]
                · exact noHole_seg buf st1 hnh1 (by omega) hslot1
                · simp only [segApply]
                  rw [sizeBump_size]
                  exact Nat.le_max_right _ _
                · intro q hq
                  refine halloc q ?_
                  rw [hA]
                  have : (segApply buf st1 (st1.ppos / BLOCK_SIZE)).allocs = rest := by
                    simp [segApply, hst1, allocApply]
                  rw [this] at hq
                  exact List.mem_cons_of_mem _ hq
        · by_cases hf : segFaults buf st = true
          · rw [writeIter_fault buf st hcap' hslot hf]
            exact ⟨hlen, hnh⟩
          · rw [writeIter_cont buf st hcap' hslot (Bool.not_eq_true _ ▸ hf)]
            refine ih (segApply buf st (st.ppos / BLOCK_SIZE)) ?_ ?_ ?_ ?_ ?_
            · simp only [segApply]
              omega
            · simp [segApply, sizeBump_blocks, hlen]
            · exact noHole_seg buf st hnh hpos hslot
            · simp only [segApply]
              rw [sizeBump_size]
              exact Nat.le_max_right _ _
            · intro q hq
              refine halloc q ?_
              have : (segApply buf st (st.ppos / BLOCK_SIZE)).allocs = st.allocs := by
                simp [segApply]
              rw [this] at hq
              exact hq

theorem osfs_write_noHole (buf : Nat → Option Nat) (ppos len : Nat) (ino : OsfsInode)
    (data : Nat → Nat) (allocs : List (Option Nat))
    (hlen : ino.blocks.length = MAX_BLOCKS_PER_FILE) (hnh : noHole ino)
    (hpos : ppos ≤ ino.i_size) (halloc : ∀ p, some p ∈ allocs → p ≠ 0) :
    (osfs_write buf ppos len ino data allocs).ino.blocks.length = MAX_BLOCKS_PER_FILE
    ∧ noHole (osfs_write buf ppos len ino data allocs).ino := by
  have h12 := writeLoopF_noHole buf len ⟨ppos, len, 0, ino, data, allocs⟩
    (Nat.le_refl _) hlen hnh hpos halloc
  unfold osfs_write writeLoop
  rcases hw : writeLoopF buf len ⟨ppos, len, 0, ino, data, allocs⟩ with ⟨r1, st1⟩
  rw [hw] at h12
  rcases r1 with _ | r0
  · exact h12
  · exact h12

theorem osfs_read_frame (dstOk : Nat → Bool) (ppos len : Nat) (ino : OsfsInode)
    (data : Nat → Nat) :
    (osfs_read dstOk ppos len ino data).ino = ino
    ∧ (osfs_read dstOk ppos len ino data).data = data := by
  unfold osfs_read
  split
  · exact ⟨rfl, rfl⟩
  · split
    · exact ⟨rfl, rfl⟩
    · exact ⟨rfl, rfl⟩

theorem reach_noHole (s : FS) (h : Reach true s) :
    s.ino.blocks.length = MAX_BLOCKS_PER_FILE ∧ noHole s.ino := by
  induction h with
  | init d0 =>
    constructor
    · simp [freshInode]
    · intro i hi
      rw [ceilBlocks_lt_iff] at hi
      simp [freshInode] at hi
  | wr s buf ppos len allocs h halloc hstrict ih =>
    exact osfs_write_noHole buf ppos len s.ino s.data allocs ih.1 ih.2
      (hstrict rfl) (fun p hp => (halloc p hp).1)
  | rd s dstOk ppos len h ih =>
    have hf := osfs_read_frame dstOk ppos len s.ino s.data
    show (osfs_read dstOk ppos len s.ino s.data).ino.blocks.length = MAX_BLOCKS_PER_FILE
      ∧ noHole (osfs_read dstOk ppos len s.ino s.data).ino
    rw [hf.1]
    exact ih


theorem readLoopF_len0 (dstOk : Nat → Bool) (ino : OsfsInode) (data : Nat → Nat)
    (n : Nat) (st : RState) (h : st.len = 0) :
    readLoopF dstOk ino data n st = (none, st) := by
  cases n <;> simp [readLoopF, h]

theorem rsegFaults_false_iff (dstOk : Nat → Bool) (st : RState) :
    rsegFaults dstOk st = false
      ↔ ∀ i, i < segLen st.ppos st.len → dstOk (st.done + i) = true := by
  unfold rsegFaults
  rw [List.any_eq_false]
  constructor
  · intro h i hi
    have := h i (List.mem_range.mpr hi)
    simpa using this
  · intro h x hx
    have := h x (List.mem_range.mp hx)
    simp [this]

theorem readLoopF_fault (dstOk : Nat → Bool) (ino : OsfsInode) (data : Nat → Nat) :
    ∀ (n : Nat) (st : RState), st.len ≤ n →
      (∃ j, j < st.len ∧ dstOk (st.done + j) = false) →
      (readLoopF dstOk ino data n st).1 = some (-EFAULT) := by
  intro n
  induction n with
  | zero =>
    intro st hle ⟨j, hj, _⟩
    omega
  | succ n ih =>
    intro st hle ⟨j, hj, hjb⟩
    have h0 : st.len ≠ 0 := by omega
    by_cases hf : rsegFaults dstOk st = true
    · simp [readLoopF, h0, hf]
    · have hf' : rsegFaults dstOk st = false := Bool.not_eq_true _ ▸ hf
      have hgood := (rsegFaults_false_iff dstOk st).mp hf'
      have hL2 : segLen st.ppos st.len ≤ st.len := segLen_le_len st.ppos st.len
      have hjL : segLen st.ppos st.len ≤ j := by
        by_contra hcon
        push_neg at hcon
        rw [hgood j hcon] at hjb
        simp at hjb
      have hstep : readLoopF dstOk ino data (n + 1) st
          = readLoopF dstOk ino data n (rsegApply ino data st) := by
        simp [readLoopF, h0, hf]
      rw [hstep]
      have hL1 : 0 < segLen st.ppos st.len := segLen_pos st.ppos h0
      refine ih (rsegApply ino data st) (by simp [rsegApply]; omega) ?_
      refine ⟨j - segLen st.ppos st.len, by simp [rsegApply]; omega, ?_⟩
      have he : (rsegApply ino data st).done + (j - segLen st.ppos st.len)
          = st.done + j := by
        simp [rsegApply]
        omega
      rw [he]
      exact hjb

theorem readLoopF_ok (dstOk : Nat → Bool) (ino : OsfsInode) (data : Nat → Nat)
    (hok : ∀ j, dstOk j = true) :
    ∀ (n : Nat) (st : RState), st.len ≤ n →
      readLoopF dstOk ino data n st
        = (none, ⟨st.ppos + st.len, 0, st.done + st.len,
            st.out ++ (List.range st.len).map (fun j =>
              data (ino.blocks.getD ((st.ppos + j) / BLOCK_SIZE) 0 * BLOCK_SIZE
                + (st.ppos + j) % BLOCK_SIZE))⟩) := by
  intro n
  induction n with
  | zero =>
    intro st hle
    have h0 : st.len = 0 := by omega
    obtain ⟨sp, sl, sd, so⟩ := st
    simp only at h0
    subst h0
    simp [readLoopF]
  | succ n ih =>
    intro st hle
    by_cases h0 : st.len = 0
    · obtain ⟨sp, sl, sd, so⟩ := st
      simp only at h0
      subst h0
      simp [readLoopF]
    · have hL1 : 0 < segLen st.ppos st.len := segLen_pos st.ppos h0
      have hL2 : segLen st.ppos st.len ≤ st.len := segLen_le_len st.ppos st.len
      have hnf : rsegFaults dstOk st = false := by
        rw [rsegFaults_false_iff]
        intro i _
        exact hok _
      have hstep : readLoopF dstOk ino data (n + 1) st
          = readLoopF dstOk ino data n (rsegApply ino data st) := by
        simp [readLoopF, h0, hnf]
      rw [hstep, ih (rsegApply ino data st) (by simp [rsegApply]; omega)]
      simp only [rsegApply, Prod.mk.injEq, RState.mk.injEq, true_and]
      set L := segLen st.ppos st.len with hL
      obtain ⟨k, hk⟩ : ∃ k, st.len = L + k := ⟨st.len - L, by omega⟩
      refine ⟨by omega, by omega, ?_⟩
      rw [List.append_assoc]
      refine congrArg₂ (· ++ ·) rfl ?_
      rw [hk, Nat.add_sub_cancel_left, List.range_add, List.map_append, List.map_map]
      refine congrArg₂ (· ++ ·) ?_ ?_
      · unfold segBytes
        refine List.map_congr_left ?_
        intro j hj
        have hj' : j < L := List.mem_range.mp hj
        obtain ⟨hdiv, hmod⟩ := div_in_seg (Nat.le_add_right st.ppos j)
          (by omega : st.ppos + j < st.ppos + segLen st.ppos st.len)
        rw [hdiv, hmod]
        exact congrArg data (by omega)
      · refine List.map_congr_left ?_
        intro j _
        exact congrArg data (by rw [Nat.add_assoc])

theorem copyIn_in (data : Nat → Nat) (base : Nat) (buf : Nat → Option Nat)
    (done n a : Nat) (h1 : base ≤ a) (h2 : a < base + n) :
    copyIn data base buf done n a = (buf (done + (a - base))).getD 0 := by
  unfold copyIn
  rw [if_pos ⟨h1, h2⟩]

theorem copyIn_out (data : Nat → Nat) (base : Nat) (buf : Nat → Option Nat)
    (done n a : Nat) (h : a < base ∨ base + n ≤ a) :
    copyIn data base buf done n a = data a := by
  unfold copyIn
  rw [if_neg (by omega)]

theorem zeroBlock_in (data : Nat → Nat) (p a : Nat) (h1 : p * BLOCK_SIZE ≤ a)
    (h2 : a < p * BLOCK_SIZE + BLOCK_SIZE) : zeroBlock data p a = 0 := by
  unfold zeroBlock
  rw [if_pos ⟨h1, h2⟩]

theorem zeroBlock_out (data : Nat → Nat) (p a : Nat)
    (h : ¬ (p * BLOCK_SIZE ≤ a ∧ a < p * BLOCK_SIZE + BLOCK_SIZE)) :
    zeroBlock data p a = data a := by
  unfold zeroBlock
  rw [if_neg h]

theorem isNone_false {o : Option Nat} (h : o.isSome = true) : o.isNone = false := by
  cases o <;> simp_all

theorem segFaults_false_iff (buf : Nat → Option Nat) (st : WState) :
    segFaults buf st = false
      ↔ ∀ i, i < segLen st.ppos st.len → (buf (st.done + i)).isNone = false := by
  unfold segFaults
  rw [List.any_eq_false]
  constructor
  · intro h i hi
    have h2 := h i (List.mem_range.mpr hi)
    cases hb : buf (st.done + i)
    · rw [hb] at h2
      simp at h2
    · simp [hb]
  · intro h x hx
    have := h x (List.mem_range.mp hx)
    simp [this]

theorem segFaults_allocApply (buf : Nat → Option Nat) (st : WState) (bi p : Nat)
    (rest : List (Option Nat)) :
    segFaults buf (allocApply st bi p rest) = segFaults buf st := by
  simp [segFaults, allocApply]

theorem distinct_set (ino : OsfsInode) (bi p : Nat)
    (hlen : ino.blocks.length = MAX_BLOCKS_PER_FILE)
    (hd : Distinct ino) (hfresh : p ∉ ino.blocks) :
    Distinct ⟨ino.blocks.set bi p, ino.i_blocks + 1, ino.i_size⟩ := by
  intro i j hi hj hij hnz
  show (ino.blocks.set bi p).getD i 0 ≠ (ino.blocks.set bi p).getD j 0
  simp only [getD_set] at hnz ⊢
  split_ifs at hnz ⊢ with hc1 hc2
  · exact absurd (hc1.1.symm.trans hc2.1) hij
  · intro he
    exact hfresh (he ▸ getD_mem ino.blocks j (by omega))
  · intro he
    exact hfresh (he.symm ▸ getD_mem ino.blocks i (by omega))
  · exact hd i j hi hj hij hnz

theorem wpost_refl (buf : Nat → Option Nat) (st2 : WState) (L2 : List Nat)
    (h0 : st2.len = 0) (hpos : st2.ppos ≤ st2.ino.i_size)
    (hblen : st2.ino.blocks.length = MAX_BLOCKS_PER_FILE)
    (hdist : Distinct st2.ino) : WPost buf st2 L2 none st2 := by
  refine ⟨rfl, by omega, by omega, hblen, hdist, by omega, fun i _ => rfl,
    fun i hi => absurd rfl hi, fun q h1 h2 => by omega, fun a _ => rfl⟩


theorem wpost_comp (buf : Nat → Option Nat) (st st2 : WState) (L L2 : List Nat)
    (P : Nat) (r1 : Option Int) (st' : WState)
    (h0 : st.len ≠ 0)
    (hcap : st.ppos + st.len ≤ MAX_BLOCKS_PER_FILE * BLOCK_SIZE)
    (e1 : st2.ppos = st.ppos + segLen st.ppos st.len)
    (e2 : st2.len = st.len - segLen st.ppos st.len)
    (e3 : st2.done = st.done + segLen st.ppos st.len)
    (e4 : st2.ino.i_size = max st.ino.i_size (st.ppos + segLen st.ppos st.len))
    (e5 : ∀ i, i ≠ st.ppos / BLOCK_SIZE →
        st2.ino.blocks.getD i 0 = st.ino.blocks.getD i 0)
    (e6 : st2.ino.blocks.getD (st.ppos / BLOCK_SIZE) 0 = P)
    (e7 : P ≠ 0)
    (e8 : st.ino.blocks.getD (st.ppos / BLOCK_SIZE) 0 ≠ P →
        st.ino.blocks.getD (st.ppos / BLOCK_SIZE) 0 = 0 ∧ P ∈ L)
    (e9 : ∀ a, P * BLOCK_SIZE + st.ppos % BLOCK_SIZE ≤ a →
        a < P * BLOCK_SIZE + st.ppos % BLOCK_SIZE + segLen st.ppos st.len →
        st2.data a
          = (buf (st.done + (a - (P * BLOCK_SIZE + st.ppos % BLOCK_SIZE)))).getD 0)
    (e10 : ∀ a, ¬ (P * BLOCK_SIZE ≤ a ∧ a < P * BLOCK_SIZE + BLOCK_SIZE) →
        st2.data a = st.data a)
    (hsub : ∀ x, x ∈ L2 → x ∈ L)
    (post : WPost buf st2 L2 r1 st') : WPost buf st L r1 st' := by
  have hLg1 : 0 < segLen st.ppos st.len := segLen_pos st.ppos h0
  have hLg2 : segLen st.ppos st.len ≤ st.len := segLen_le_len st.ppos st.len
  have hoff := off_lt st.ppos
  have hsegoff := segLen_off st.ppos st.len
  have hdec := ppos_decomp st.ppos
  have hP1 : 0 < P := Nat.pos_of_ne_zero e7
  have hPB : BLOCK_SIZE ≤ P * BLOCK_SIZE := Nat.le_mul_of_pos_left BLOCK_SIZE hP1
  have hdivmono : st.ppos / BLOCK_SIZE ≤ st2.ppos / BLOCK_SIZE := by
    rw [e1]
    exact Nat.div_le_div_right (Nat.le_add_right _ _)
  have hslot' : st'.ino.blocks.getD (st.ppos / BLOCK_SIZE) 0 = P := by
    by_cases hch : st'.ino.blocks.getD (st.ppos / BLOCK_SIZE) 0
        = st2.ino.blocks.getD (st.ppos / BLOCK_SIZE) 0
    · rw [hch, e6]
    · have hz := (post.slotsNew _ hch).1
      rw [e6] at hz
      exact absurd hz e7
  refine ⟨post.rnone, ?_, ?_, post.blen, post.dist, ?_, ?_, ?_, ?_, ?_⟩
  · rw [post.done, e3, e2]
    omega
  · rw [post.ppos, e1, e2]
    omega
  · rw [post.size, e4, e1, e2]
    omega
  · intro i hi
    have hi2 : i < st2.ppos / BLOCK_SIZE := by omega
    rw [post.slotsLow i hi2, e5 i (by omega)]
  · intro i hch
    by_cases hc : st'.ino.blocks.getD i 0 = st2.ino.blocks.getD i 0
    · have hibi : i = st.ppos / BLOCK_SIZE := by
        by_contra hne
        rw [hc, e5 i hne] at hch
        exact hch rfl
      subst hibi
      rw [hc, e6] at hch ⊢
      exact e8 (Ne.symm hch)
    · have hn := post.slotsNew i hc
      by_cases hibi : i = st.ppos / BLOCK_SIZE
      · subst hibi
        rw [e6] at hn
        exact absurd hn.1 e7
      · rw [e5 i hibi] at hn
        exact ⟨hn.1, hsub _ hn.2⟩
  · intro q hq1 hq2
    by_cases hq : q < st.ppos + segLen st.ppos st.len
    · obtain ⟨hdiv, hmod⟩ := div_in_seg hq1 hq
      rw [hdiv, hslot']
      have hmod_lt : q % BLOCK_SIZE < BLOCK_SIZE := off_lt q
      have hfr : st'.data (P * BLOCK_SIZE + q % BLOCK_SIZE)
          = st2.data (P * BLOCK_SIZE + q % BLOCK_SIZE) := by
        apply post.dataFrame
        intro q2 hq21 hq22 hin
        have hlen2 : st2.len ≠ 0 := by omega
        have hfull : st.ppos + segLen st.ppos st.len
            = (st.ppos / BLOCK_SIZE + 1) * BLOCK_SIZE := cont_full (by omega)
        have hq2div : st.ppos / BLOCK_SIZE + 1 ≤ q2 / BLOCK_SIZE := by
          have hb2 : (st.ppos / BLOCK_SIZE + 1) * BLOCK_SIZE ≤ q2 := by omega
          calc st.ppos / BLOCK_SIZE + 1
              = (st.ppos / BLOCK_SIZE + 1) * BLOCK_SIZE / BLOCK_SIZE :=
                (Nat.mul_div_left _ BS_pos).symm
            _ ≤ q2 / BLOCK_SIZE := Nat.div_le_div_right hb2
        set v := st'.ino.blocks.getD (q2 / BLOCK_SIZE) 0 with hv
        rcases Nat.eq_zero_or_pos v with hv0 | hvpos
        · rw [hv0] at hin
          omega
        · have ha1 := div_of_inBlock hin.1 hin.2
          have ha2 : (P * BLOCK_SIZE + q % BLOCK_SIZE) / BLOCK_SIZE = P :=
            div_of_inBlock (Nat.le_add_right _ _) (by omega)
          have hvP : v = P := by omega
          have hmax2 : q2 / BLOCK_SIZE < MAX_BLOCKS_PER_FILE := by
            apply bi_lt_of_lt
            omega
          have hbimax : st.ppos / BLOCK_SIZE < MAX_BLOCKS_PER_FILE := by
            apply bi_lt_of_lt
            omega
          have hd2 := post.dist (st.ppos / BLOCK_SIZE) (q2 / BLOCK_SIZE) hbimax hmax2
            (by omega) (by rw [hslot']; exact e7)
          rw [hslot', ← hv] at hd2
          exact hd2 hvP.symm
      rw [hfr, e9 _ (by omega) (by omega)]
      exact congrArg (fun x => (buf x).getD 0) (by omega)
    · have hge : st2.ppos ≤ q := by omega
      have hlt : q < st2.ppos + st2.len := by omega
      rw [post.dataMain q hge hlt]
      exact congrArg (fun x => (buf x).getD 0) (by omega)
  · intro a havoid
    have h1 : st'.data a = st2.data a := by
      apply post.dataFrame
      intro q hq1 hq2
      exact havoid q (by omega) (by omega)
    rw [h1]
    apply e10
    intro hin
    have hvi := havoid st.ppos (Nat.le_refl _) (by omega)
    rw [hslot'] at hvi
    exact hvi hin


theorem writeLoopF_succ_cont (buf : Nat → Option Nat) (n : Nat) (st st' : WState)
    (h0 : st.len ≠ 0) (h : writeIter buf st = .inr st') :
    writeLoopF buf (n + 1) st = writeLoopF buf n st' := by
  rw [writeLoopF_succ buf n st h0, h]

theorem distinct_congr {ino ino' : OsfsInode} (h : ino.blocks = ino'.blocks)
    (hd : Distinct ino') : Distinct ino := by
  intro i j hi hj hij hnz
  rw [h] at hnz ⊢
  exact hd i j hi hj hij hnz

theorem writeLoopF_post (buf : Nat → Option Nat) :
    ∀ (n : Nat) (st : WState) (L : List Nat),
      st.len ≤ n → st.len ≠ 0 →
      st.ppos + st.len ≤ MAX_BLOCKS_PER_FILE * BLOCK_SIZE →
      st.ino.blocks.length = MAX_BLOCKS_PER_FILE →
      Distinct st.ino →
      st.allocs = L.map some →
      L.Nodup →
      (∀ p, p ∈ L → p ≠ 0 ∧ p ∉ st.ino.blocks) →
      st.len ≤ L.length →
      (∀ i, st.done ≤ i → i < st.done + st.len → (buf i).isSome = true) →
      WPost buf st L (writeLoopF buf n st).1 (writeLoopF buf n st).2 := by
  intro n
  induction n with
  | zero =>
    intro st L hle h0 _ _ _ _ _ _ _ _
    omega
  | succ n ih =>
    intro st L hle h0 hcap hblen hdist hallocs hnd hfresh hlenL hbuf
    have hLg1 : 0 < segLen st.ppos st.len := segLen_pos st.ppos h0
    have hLg2 : segLen st.ppos st.len ≤ st.len := segLen_le_len st.ppos st.len
    have hsegoff := segLen_off st.ppos st.len
    have hoff := off_lt st.ppos
    have hcap' : st.ppos / BLOCK_SIZE < MAX_BLOCKS_PER_FILE :=
      bi_lt_of_lt (by omega)
    have hnof : segFaults buf st = false := by
      rw [segFaults_false_iff]
      intro i hi
      exact isNone_false (hbuf (st.done + i) (by omega) (by omega))
    by_cases hslot : st.ino.blocks.getD (st.ppos / BLOCK_SIZE) 0 = 0
    · rcases L with _ | ⟨p, Ltl⟩
      · exact absurd (by simpa using hlenL : st.len = 0) h0
      obtain ⟨hp0, hpfresh⟩ := hfresh p (List.mem_cons_self _ _)
      have hallocs' : st.allocs = some p :: Ltl.map some := by
        simp [hallocs]
      have hnofA :
          segFaults buf (allocApply st (st.ppos / BLOCK_SIZE) p (Ltl.map some))
            = false := by
        rw [segFaults_allocApply]
        exact hnof
      rw [writeLoopF_succ_cont buf n st _ h0
        (writeIter_allocCont buf st p (Ltl.map some) hcap' hslot hallocs' hnofA)]
      set st1 := allocApply st (st.ppos / BLOCK_SIZE) p (Ltl.map some) with hst1
      set st2 := segApply buf st1 (st.ppos / BLOCK_SIZE) with hst2
      have hphy : st1.ino.blocks.getD (st.ppos / BLOCK_SIZE) 0 = p := by
        simp only [hst1, allocApply]
        rw [getD_set, if_pos ⟨rfl, by omega⟩]
      have f_blocks : st2.ino.blocks = st.ino.blocks.set (st.ppos / BLOCK_SIZE) p := by
        simp only [hst2, segApply]
        rw [sizeBump_blocks]
        simp only [hst1, allocApply]
      have e1 : st2.ppos = st.ppos + segLen st.ppos st.len := by
        simp only [hst2, segApply, hst1, allocApply]
      have e2 : st2.len = st.len - segLen st.ppos st.len := by
        simp only [hst2, segApply, hst1, allocApply]
      have e3 : st2.done = st.done + segLen st.ppos st.len := by
        simp only [hst2, segApply, hst1, allocApply]
      have e4 : st2.ino.i_size = max st.ino.i_size (st.ppos + segLen st.ppos st.len) := by
        simp only [hst2, segApply]
        rw [sizeBump_size]
        simp only [hst1, allocApply]
      have e5 : ∀ i, i ≠ st.ppos / BLOCK_SIZE →
          st2.ino.blocks.getD i 0 = st.ino.blocks.getD i 0 := by
        intro i hne
        rw [f_blocks, getD_set, if_neg (fun hcon => hne hcon.1.symm)]
      have e6 : st2.ino.blocks.getD (st.ppos / BLOCK_SIZE) 0 = p := by
        rw [f_blocks, getD_set, if_pos ⟨rfl, by omega⟩]
      have f_data : st2.data
          = copyIn (zeroBlock st.data p)
              (p * BLOCK_SIZE + st.ppos % BLOCK_SIZE) buf st.done
              (segLen st.ppos st.len) := by
        simp only [hst2, segApply]
        rw [hphy]
        simp only [hst1, allocApply]
      have e9 : ∀ a, p * BLOCK_SIZE + st.ppos % BLOCK_SIZE ≤ a →
          a < p * BLOCK_SIZE + st.ppos % BLOCK_SIZE + segLen st.ppos st.len →
          st2.data a
            = (buf (st.done + (a - (p * BLOCK_SIZE + st.ppos % BLOCK_SIZE)))).getD 0 := by
        intro a h1 h2
        rw [f_data]
        exact copyIn_in _ _ _ _ _ _ h1 h2
      have e10 : ∀ a, ¬ (p * BLOCK_SIZE ≤ a ∧ a < p * BLOCK_SIZE + BLOCK_SIZE) →
          st2.data a = st.data a := by
        intro a ha
        rw [f_data, copyIn_out _ _ _ _ _ _ (by omega), zeroBlock_out _ _ _ ha]
      have hblen2 : st2.ino.blocks.length = MAX_BLOCKS_PER_FILE := by
        rw [f_blocks, List.length_set, hblen]
      have hdist2 : Distinct st2.ino :=
        distinct_congr f_blocks
          (distinct_set st.ino (st.ppos / BLOCK_SIZE) p hblen hdist hpfresh)
      by_cases hz : st2.len = 0
      · rw [writeLoopF_len0 buf n st2 hz]
        refine wpost_comp buf st st2 (p :: Ltl) Ltl p none st2 h0 hcap e1 e2 e3 e4 e5 e6
          hp0 (fun _ => ⟨hslot, List.mem_cons_self _ _⟩) e9 e10
          (fun x hx => List.mem_cons_of_mem _ hx) ?_
        exact wpost_refl buf st2 Ltl hz (by omega) hblen2 hdist2
      · refine wpost_comp buf st st2 (p :: Ltl) Ltl p _ _ h0 hcap e1 e2 e3 e4 e5 e6
          hp0 (fun _ => ⟨hslot, List.mem_cons_self _ _⟩) e9 e10
          (fun x hx => List.mem_cons_of_mem _ hx) ?_
        refine ih st2 Ltl (by omega) hz (by omega) hblen2 hdist2 ?_
          (List.Nodup.of_cons hnd) ?_ ?_ ?_
        · simp only [hst2, segApply, hst1, allocApply]
        · intro q hq
          refine ⟨(hfresh q (List.mem_cons_of_mem _ hq)).1, ?_⟩
          intro hmem
          rw [f_blocks] at hmem
          rcases List.mem_or_eq_of_mem_set hmem with h | h
          · exact (hfresh q (List.mem_cons_of_mem _ hq)).2 h
          · exact (List.nodup_cons.mp hnd).1 (h ▸ hq)
        · have : st.len ≤ Ltl.length + 1 := by simpa using hlenL
          omega
        · intro i h1 h2
          refine hbuf i ?_ ?_ <;> omega
    · rw [writeLoopF_succ_cont buf n st _ h0 (writeIter_cont buf st hcap' hslot hnof)]
      set st2 := segApply buf st (st.ppos / BLOCK_SIZE) with hst2
      have f_blocks : st2.ino.blocks = st.ino.blocks := by
        simp only [hst2, segApply]
        rw [sizeBump_blocks]
      have e1 : st2.ppos = st.ppos + segLen st.ppos st.len := by
        simp only [hst2, segApply]
      have e2 : st2.len = st.len - segLen st.ppos st.len := by
        simp only [hst2, segApply]
      have e3 : st2.done = st.done + segLen st.ppos st.len := by
        simp only [hst2, segApply]
      have e4 : st2.ino.i_size = max st.ino.i_size (st.ppos + segLen st.ppos st.len) := by
        simp only [hst2, segApply]
        rw [sizeBump_size]
      have e5 : ∀ i, i ≠ st.ppos / BLOCK_SIZE →
          st2.ino.blocks.getD i 0 = st.ino.blocks.getD i 0 := by
        intro i _
        rw [f_blocks]
      have e6 : st2.ino.blocks.getD (st.ppos / BLOCK_SIZE) 0
          = st.ino.blocks.getD (st.ppos / BLOCK_SIZE) 0 := by
        rw [f_blocks]
      have f_data : st2.data
          = copyIn st.data
              (st.ino.blocks.getD (st.ppos / BLOCK_SIZE) 0 * BLOCK_SIZE
                + st.ppos % BLOCK_SIZE) buf st.done (segLen st.ppos st.len) := by
        simp only [hst2, segApply]
      have e9 : ∀ a,
          st.ino.blocks.getD (st.ppos / BLOCK_SIZE) 0 * BLOCK_SIZE
            + st.ppos % BLOCK_SIZE ≤ a →
          a < st.ino.blocks.getD (st.ppos / BLOCK_SIZE) 0 * BLOCK_SIZE
            + st.ppos % BLOCK_SIZE + segLen st.ppos st.len →
          st2.data a
            = (buf (st.done + (a - (st.ino.blocks.getD (st.ppos / BLOCK_SIZE) 0 * BLOCK_SIZE
                + st.ppos % BLOCK_SIZE)))).getD 0 := by
        intro a h1 h2
        rw [f_data]
        exact copyIn_in _ _ _ _ _ _ h1 h2
      have e10 : ∀ a, ¬ (st.ino.blocks.getD (st.ppos / BLOCK_SIZE) 0 * BLOCK_SIZE ≤ a
          ∧ a < st.ino.blocks.getD (st.ppos / BLOCK_SIZE) 0 * BLOCK_SIZE + BLOCK_SIZE) →
          st2.data a = st.data a := by
        intro a ha
        rw [f_data, copyIn_out _ _ _ _ _ _ (by omega)]
      have hblen2 : st2.ino.blocks.length = MAX_BLOCKS_PER_FILE := by
        rw [f_blocks, hblen]
      have hdist2 : Distinct st2.ino := distinct_congr f_blocks hdist
      by_cases hz : st2.len = 0
      · rw [writeLoopF_len0 buf n st2 hz]
        refine wpost_comp buf st st2 L L
          (st.ino.blocks.getD (st.ppos / BLOCK_SIZE) 0) none st2 h0 hcap e1 e2 e3 e4 e5 e6
          hslot (fun h => absurd rfl h) e9 e10 (fun x hx => hx) ?_
        exact wpost_refl buf st2 L hz (by omega) hblen2 hdist2
      · refine wpost_comp buf st st2 L L
          (st.ino.blocks.getD (st.ppos / BLOCK_SIZE) 0) _ _ h0 hcap e1 e2 e3 e4 e5 e6
          hslot (fun h => absurd rfl h) e9 e10 (fun x hx => hx) ?_
        refine ih st2 L (by omega) hz (by omega) hblen2 hdist2 ?_ hnd ?_ ?_ ?_
        · simp only [hst2, segApply]
          exact hallocs
        · intro q hq
          refine ⟨(hfresh q hq).1, ?_⟩
          intro hmem
          rw [f_blocks] at hmem
          exact (hfresh q hq).2 hmem
        · omega
        · intro i h1 h2
          refine hbuf i ?_ ?_ <;> omega


theorem write_read_roundtrip (ino : OsfsInode) (data : Nat → Nat) (L : List Nat)
    (ppos k : Nat) (f : Nat → Nat)
    (hwf1 : ino.blocks.length = MAX_BLOCKS_PER_FILE)
    (hwf2 : Distinct ino)
    (hcap : ppos + k ≤ MAX_BLOCKS_PER_FILE * BLOCK_SIZE)
    (hnd : L.Nodup)
    (hfresh : ∀ p, p ∈ L → p ≠ 0 ∧ p ∉ ino.blocks)
    (hlenL : k ≤ L.length) :
    (osfs_write (fun i => some (f i)) ppos k ino data (L.map some)).res = Int.ofNat k
    ∧ (osfs_read (fun _ => true) ppos k
        (osfs_write (fun i => some (f i)) ppos k ino data (L.map some)).ino
        (osfs_write (fun i => some (f i)) ppos k ino data (L.map some)).data).res
        = Int.ofNat k
    ∧ (osfs_read (fun _ => true) ppos k
        (osfs_write (fun i => some (f i)) ppos k ino data (L.map some)).ino
        (osfs_write (fun i => some (f i)) ppos k ino data (L.map some)).data).out
        = (List.range k).map f := by
  by_cases hk : k = 0
  · subst hk
    have hw : osfs_write (fun i => some (f i)) ppos 0 ino data (L.map some)
        = ⟨Int.ofNat 0, ppos, ino, data, L.map some, true⟩ := rfl
    rw [hw]
    by_cases hsz : ino.i_size ≤ ppos
    · have hr : osfs_read (fun _ => true) ppos 0 ino data
          = ⟨0, ppos, [], ino, data, false⟩ := by
        unfold osfs_read
        rw [if_pos hsz]
      rw [hr]
      exact ⟨rfl, rfl, rfl⟩
    · have hc : rclamp ino.i_size ppos 0 = 0 := by
        unfold rclamp
        rw [if_neg (by omega)]
      have hr : osfs_read (fun _ => true) ppos 0 ino data
          = ⟨Int.ofNat 0, ppos, [], ino, data, false⟩ := by
        unfold osfs_read
        rw [if_neg hsz]
        rw [hc]
        rw [readLoopF_len0 _ ino data 0 ⟨ppos, 0, 0, []⟩ rfl]
      rw [hr]
      exact ⟨rfl, rfl, rfl⟩
  · have post := writeLoopF_post (fun i => some (f i)) k
      ⟨ppos, k, 0, ino, data, L.map some⟩ L (Nat.le_refl _) hk hcap hwf1 hwf2 rfl hnd
      hfresh hlenL (fun i _ _ => rfl)
    rcases hw : writeLoopF (fun i => some (f i)) k ⟨ppos, k, 0, ino, data, L.map some⟩
      with ⟨r1, st1⟩
    rw [hw] at post
    have hr1 : r1 = none := post.rnone
    subst hr1
    have hw2 : osfs_write (fun i => some (f i)) ppos k ino data (L.map some)
        = ⟨Int.ofNat st1.done, st1.ppos, st1.ino, st1.data, st1.allocs, true⟩ := by
      unfold osfs_write writeLoop
      dsimp only
      rw [hw]
    have hdone : st1.done = k := by
      have := post.done
      simpa using this
    have hsize : st1.ino.i_size = max ino.i_size (ppos + k) := post.size
    rw [hw2]
    have hszgt : ¬ st1.ino.i_size ≤ ppos := by
      rw [hsize]
      omega
    have hcl : rclamp st1.ino.i_size ppos k = k := by
      unfold rclamp
      rw [if_neg (by rw [hsize]; omega)]
    have hread := readLoopF_ok (fun _ => true) st1.ino st1.data (fun _ => rfl) k
      ⟨ppos, k, 0, []⟩ (Nat.le_refl _)
    have hr : osfs_read (fun _ => true) ppos k st1.ino st1.data
        = ⟨Int.ofNat k, ppos + k, (List.range k).map (fun j =>
            st1.data (st1.ino.blocks.getD ((ppos + j) / BLOCK_SIZE) 0 * BLOCK_SIZE
              + (ppos + j) % BLOCK_SIZE)), st1.ino, st1.data, false⟩ := by
      unfold osfs_read
      rw [if_neg hszgt, hcl, hread]
      simp
    rw [hr]
    refine ⟨by rw [hdone], rfl, ?_⟩
    show (List.range k).map _ = (List.range k).map f
    refine List.map_congr_left ?_
    intro j hj
    have hj' : j < k := List.mem_range.mp hj
    have hm := post.dataMain (ppos + j) (Nat.le_add_right _ _) (by dsimp only; omega)
    dsimp only at hm
    rw [hm]
    show f (0 + (ppos + j - ppos)) = f j
    exact congrArg f (by omega)


theorem writeLoop_cap (buf : Nat → Option Nat) (st : WState) (h0 : st.len ≠ 0)
    (hcap : MAX_BLOCKS_PER_FILE * BLOCK_SIZE ≤ st.ppos) (hdone : st.done = 0) :
    writeLoop buf st = (some (-ENOSPC), st) := by
  unfold writeLoop
  obtain ⟨m, hm⟩ := Nat.exists_eq_succ_of_ne_zero h0
  rw [hm, writeLoopF_succ buf m st h0, writeIter_cap buf st (bi_ge_of_ge hcap)]
  rw [hdone]
  simp

theorem osfs_write_count (buf : Nat → Option Nat) (ppos len : Nat) (ino : OsfsInode)
    (data : Nat → Nat) (allocs : List (Option Nat)) (m : Nat)
    (h : (osfs_write buf ppos len ino data allocs).res = Int.ofNat m) :
    ino.i_size ≤ (osfs_write buf ppos len ino data allocs).ino.i_size
    ∧ (0 < m → (osfs_write buf ppos len ino data allocs).ino.i_size
        = max ino.i_size (ppos + m))
    ∧ (m = 0 → (osfs_write buf ppos len ino data allocs).ino.i_size = ino.i_size) := by
  have hs := writeLoopF_sizeP buf len ⟨ppos, len, 0, ino, data, allocs⟩ (Nat.le_refl _)
  rcases hw : writeLoopF buf len ⟨ppos, len, 0, ino, data, allocs⟩ with ⟨r1, st1⟩
  rw [hw] at hs
  unfold SizeP at hs
  dsimp only at hs
  obtain ⟨a, b, c⟩ := hs
  rcases r1 with _ | r0
  · have hW : osfs_write buf ppos len ino data allocs
        = ⟨Int.ofNat st1.done, st1.ppos, st1.ino, st1.data, st1.allocs, true⟩ := by
      unfold osfs_write writeLoop
      dsimp only
      rw [hw]
    rw [hW] at h ⊢
    dsimp only at h ⊢
    obtain ⟨b1, b2, b3⟩ := b rfl
    have hm : st1.done = m := Int.ofNat.inj h
    refine ⟨a, ?_, ?_⟩
    · intro hmpos
      have hlen0 : len ≠ 0 := by omega
      rw [b2 hlen0]
      have : m = len := by omega
      rw [this]
    · intro hm0
      have hlen0 : len = 0 := by omega
      have := b3 hlen0
      rw [this]
  · have hW : osfs_write buf ppos len ino data allocs
        = ⟨r0, st1.ppos, st1.ino, st1.data, st1.allocs, false⟩ := by
      unfold osfs_write writeLoop
      dsimp only
      rw [hw]
    rw [hW] at h ⊢
    dsimp only at h ⊢
    obtain ⟨c1, c2⟩ := c r0 rfl
    obtain ⟨d1, d2, d3, d4⟩ := c2 m h
    refine ⟨a, ?_, ?_⟩
    · intro hmpos
      have := d3 (by omega)
      rw [this]
      omega
    · intro hm0
      exact d4 (by omega)

theorem osfs1_write_tail_count (buf : Nat → Option Nat) (ppos len : Nat)
    (ino : Osfs1Inode) (data : Nat → Nat) (allocs : List (Option Nat)) (m : Nat)
    (h : (osfs1_write_tail buf ppos len ino data allocs).res = Int.ofNat m) :
    (osfs1_write_tail buf ppos len ino data allocs).ino.i_size
      = max ino.i_size (ppos + m) := by
  unfold osfs1_write_tail at h ⊢
  by_cases h1 : BLOCK_SIZE ≤ ppos
  · rw [if_pos h1] at h
    dsimp only at h
    exfalso
    rw [show (-ENOSPC : Int) = -28 from rfl, Int.ofNat_eq_natCast] at h
    omega
  · rw [if_neg h1] at h ⊢
    by_cases h2 : (List.range (clamp1 ppos len)).any (fun i => (buf i).isNone) = true
    · rw [if_pos h2] at h
      dsimp only at h
      exfalso
      rw [show (-EFAULT : Int) = -14 from rfl, Int.ofNat_eq_natCast] at h
      omega
    · rw [if_neg h2] at h ⊢
      dsimp only at h ⊢
      have hm : clamp1 ppos len = m := Int.ofNat.inj h
      rw [hm]
      split
      · dsimp only
        omega
      · omega

theorem osfs1_write_count (buf : Nat → Option Nat) (ppos len : Nat) (ino : Osfs1Inode)
    (data : Nat → Nat) (allocs : List (Option Nat)) (m : Nat)
    (h : (osfs1_write buf ppos len ino data allocs).res = Int.ofNat m) :
    (osfs1_write buf ppos len ino data allocs).ino.i_size
      = max ino.i_size (ppos + m) := by
  unfold osfs1_write at h ⊢
  by_cases hib : ino.i_blocks = 0
  · rw [if_pos hib] at h ⊢
    rcases allocs with _ | ⟨a, rest⟩
    · dsimp only at h
      exfalso
      rw [show (-ENOSPC : Int) = -28 from rfl, Int.ofNat_eq_natCast] at h
      omega
    · rcases a with _ | p
      · dsimp only at h
        exfalso
        rw [show (-ENOSPC : Int) = -28 from rfl, Int.ofNat_eq_natCast] at h
        omega
      · exact osfs1_write_tail_count buf ppos len ⟨p, 1, ino.i_size⟩
          (zeroBlock data p) rest m h
  · rw [if_neg hib] at h ⊢
    exact osfs1_write_tail_count buf ppos len ino data allocs m h


/-- Claim C1 counterexample: on the single-block variant, a write of one byte
starting at exactly BLOCK_SIZE on a file with no allocated block returns
-ENOSPC with zero bytes written, but the extent map is NOT left unchanged:
the single block is allocated first (allocated-block count goes from 0 to 1),
contradicting the claim as stated. -/
theorem claim_C1_cex :
    (osfs1_write (fun _ => some 0) BLOCK_SIZE 1 ⟨0, 0, 0⟩ (fun _ => 0) [some 1]).res
      = -ENOSPC
    ∧ (osfs1_write (fun _ => some 0) BLOCK_SIZE 1 ⟨0, 0, 0⟩ (fun _ => 0) [some 1]).ino.i_blocks
      = 1 := by
  exact ⟨rfl, rfl⟩

/-- Claim C1 (amended): a write starting at or past N*BLOCK_SIZE with nonzero
length returns -ENOSPC with zero bytes written and no timestamp update; the
multi-block variant leaves the extent map and arena completely unchanged; the
single-block variant does so provided its data block is already allocated
(on a fresh file it first allocates and zero-fills the block before
returning the fault). -/
theorem claim_C1 :
    (∀ (buf : Nat → Option Nat) (ppos len : Nat) (ino : OsfsInode) (data : Nat → Nat)
        (allocs : List (Option Nat)),
      MAX_BLOCKS_PER_FILE * BLOCK_SIZE ≤ ppos → len ≠ 0 →
        (osfs_write buf ppos len ino data allocs).res = -ENOSPC
        ∧ (osfs_write buf ppos len ino data allocs).ino = ino
        ∧ (osfs_write buf ppos len ino data allocs).data = data
        ∧ (osfs_write buf ppos len ino data allocs).touched = false)
    ∧ (∀ (buf : Nat → Option Nat) (ppos len : Nat) (ino : Osfs1Inode) (data : Nat → Nat)
        (allocs : List (Option Nat)),
      BLOCK_SIZE ≤ ppos → len ≠ 0 → ino.i_blocks ≠ 0 →
        (osfs1_write buf ppos len ino data allocs).res = -ENOSPC
        ∧ (osfs1_write buf ppos len ino data allocs).ino = ino
        ∧ (osfs1_write buf ppos len ino data allocs).data = data
        ∧ (osfs1_write buf ppos len ino data allocs).touched = false) := by
  constructor
  · intro buf ppos len ino data allocs hcap hlen
    have hc := writeLoop_cap buf ⟨ppos, len, 0, ino, data, allocs⟩ hlen hcap rfl
    unfold osfs_write
    rw [hc]
    exact ⟨rfl, rfl, rfl, rfl⟩
  · intro buf ppos len ino data allocs hcap hlen hib
    unfold osfs1_write
    rw [if_neg hib]
    unfold osfs1_write_tail
    rw [if_pos hcap]
    exact ⟨rfl, rfl, rfl, rfl⟩

/-- Claim C1 witness: the amended theorem applied at a concrete write past
the capacity ceiling in each variant. -/
theorem claim_C1_witness :
    MAX_BLOCKS_PER_FILE * BLOCK_SIZE ≤ 20480 ∧ (1 : Nat) ≠ 0
    ∧ (osfs_write (fun _ => some 0) 20480 1 freshInode (fun _ => 0) []).res = -ENOSPC
    ∧ (osfs1_write (fun _ => some 0) 4096 1 ⟨3, 1, 5⟩ (fun _ => 0) []).res = -ENOSPC :=
  ⟨by decide, by decide,
   (claim_C1.1 (fun _ => some 0) 20480 1 freshInode (fun _ => 0) []
     (by decide) (by decide)).1,
   (claim_C1.2 (fun _ => some 0) 4096 1 ⟨3, 1, 5⟩ (fun _ => 0) []
     (by decide) (by decide) (by decide)).1⟩

/-- Claim C2 counterexample: from a fresh extent map, a single multi-block
write of one byte at offset BLOCK_SIZE (past the end of the empty file,
granted fresh nonzero physical block 1) succeeds and reaches a state with
logical size BLOCK_SIZE+1 whose logical block 0 is still unallocated: a hole
below the size boundary, observable between calls. -/
theorem claim_C2_cex :
    Reach false
      ⟨(osfs_write (fun _ => some 7) BLOCK_SIZE 1 freshInode (fun _ => 0) [some 1]).ino,
       (osfs_write (fun _ => some 7) BLOCK_SIZE 1 freshInode (fun _ => 0) [some 1]).data⟩
    ∧ ¬ noHole (osfs_write (fun _ => some 7) BLOCK_SIZE 1 freshInode
        (fun _ => 0) [some 1]).ino := by
  constructor
  · exact Reach.wr false ⟨freshInode, fun _ => 0⟩ (fun _ => some 7) BLOCK_SIZE 1 [some 1]
      (Reach.init false (fun _ => 0))
      (fun p hp => by
        have hp1 : p = 1 := by simpa using hp
        subst hp1
        exact ⟨by decide, by decide⟩)
      (fun h => nomatch h)
  · intro h
    exact absurd
      (by decide :
        (osfs_write (fun _ => some 7) BLOCK_SIZE 1 freshInode
          (fun _ => 0) [some 1]).ino.blocks.getD 0 0 = 0)
      (h 0 (by decide))

/-- Claim C2 (amended): in every state reachable from a fresh extent map by
reads and by writes whose starting offset is at most the current logical
size (the allocator granting only nonzero, unused physical indices), every
logical block index below ceil(logical_size / BLOCK_SIZE) holds an allocated
(nonzero) slot. Writes starting beyond the current size can create holes, as
the counterexample shows. -/
theorem claim_C2 (s : FS) (h : Reach true s) : noHole s.ino :=
  (reach_noHole s h).2

/-- Claim C2 witness: the fresh state is reachable and satisfies the
invariant. -/
theorem claim_C2_witness : noHole (⟨freshInode, fun _ => 0⟩ : FS).ino :=
  claim_C2 ⟨freshInode, fun _ => 0⟩ (Reach.init true (fun _ => 0))

/-- Claim C3: for any well-formed extent map (slots pairwise distinct, array
of length MAX_BLOCKS_PER_FILE), any offset o and length k with
o + k ≤ N*BLOCK_SIZE, if the allocator has at least k fresh nonzero pairwise
distinct grants and every user byte is accessible, then writing k bytes at o
returns k, and an immediately following read of k bytes at o returns k and
delivers exactly the bytes written. -/
theorem claim_C3 (ino : OsfsInode) (data : Nat → Nat) (L : List Nat)
    (ppos k : Nat) (f : Nat → Nat)
    (hwf1 : ino.blocks.length = MAX_BLOCKS_PER_FILE)
    (hwf2 : Distinct ino)
    (hcap : ppos + k ≤ MAX_BLOCKS_PER_FILE * BLOCK_SIZE)
    (hnd : L.Nodup)
    (hfresh : ∀ p, p ∈ L → p ≠ 0 ∧ p ∉ ino.blocks)
    (hlenL : k ≤ L.length) :
    (osfs_write (fun i => some (f i)) ppos k ino data (L.map some)).res = Int.ofNat k
    ∧ (osfs_read (fun _ => true) ppos k
        (osfs_write (fun i => some (f i)) ppos k ino data (L.map some)).ino
        (osfs_write (fun i => some (f i)) ppos k ino data (L.map some)).data).res
        = Int.ofNat k
    ∧ (osfs_read (fun _ => true) ppos k
        (osfs_write (fun i => some (f i)) ppos k ino data (L.map some)).ino
        (osfs_write (fun i => some (f i)) ppos k ino data (L.map some)).data).out
        = (List.range k).map f :=
  write_read_roundtrip ino data L ppos k f hwf1 hwf2 hcap hnd hfresh hlenL

theorem distinct_fresh : Distinct freshInode := by
  intro i j hi hj hij hnz
  exfalso
  apply hnz
  have hi5 : i < 5 := hi
  interval_cases i <;> rfl

/-- Claim C3 witness: the round trip at offset 4090 with 10 bytes spanning
two freshly allocated blocks. -/
theorem claim_C3_witness :
    (osfs_write (fun i => some (i + 40)) 4090 10 freshInode (fun _ => 0)
      ([2, 3, 4, 5, 6, 7, 8, 9, 10, 11].map some)).res = Int.ofNat 10
    ∧ (osfs_read (fun _ => true) 4090 10
        (osfs_write (fun i => some (i + 40)) 4090 10 freshInode (fun _ => 0)
          ([2, 3, 4, 5, 6, 7, 8, 9, 10, 11].map some)).ino
        (osfs_write (fun i => some (i + 40)) 4090 10 freshInode (fun _ => 0)
          ([2, 3, 4, 5, 6, 7, 8, 9, 10, 11].map some)).data).res = Int.ofNat 10
    ∧ (osfs_read (fun _ => true) 4090 10
        (osfs_write (fun i => some (i + 40)) 4090 10 freshInode (fun _ => 0)
          ([2, 3, 4, 5, 6, 7, 8, 9, 10, 11].map some)).ino
        (osfs_write (fun i => some (i + 40)) 4090 10 freshInode (fun _ => 0)
          ([2, 3, 4, 5, 6, 7, 8, 9, 10, 11].map some)).data).out = (List.range 10).map (fun i => i + 40) :=
  claim_C3 freshInode (fun _ => 0) [2, 3, 4, 5, 6, 7, 8, 9, 10, 11] 4090 10
    (fun i => i + 40) (by decide) distinct_fresh (by decide) (by decide)
    (by decide) (by decide)


/-- Claim C4 counterexample: a zero-length multi-block write at offset 1 on a
fresh empty file returns byte count 0 (a byte-count return), but the logical
size stays 0, while the claimed formula max(old_size, offset+bytes_written)
gives 1. -/
theorem claim_C4_cex :
    (osfs_write (fun _ => some 0) 1 0 freshInode (fun _ => 0) []).res = Int.ofNat 0
    ∧ (osfs_write (fun _ => some 0) 1 0 freshInode (fun _ => 0) []).ino.i_size
      ≠ max freshInode.i_size (1 + 0) :=
  ⟨rfl, by decide⟩

/-- Claim C4 (amended): on every write call returning a byte count m, the
logical size never shrinks; in the multi-block variant it equals
max(old_size, offset + m) whenever m > 0 and is unchanged when m = 0 (a
zero-length request does not pull the size up to its offset); in the
single-block variant it equals max(old_size, offset + m) for every
byte-count return, including m = 0. -/
theorem claim_C4 :
    (∀ (buf : Nat → Option Nat) (ppos len : Nat) (ino : OsfsInode) (data : Nat → Nat)
        (allocs : List (Option Nat)) (m : Nat),
      (osfs_write buf ppos len ino data allocs).res = Int.ofNat m →
        ino.i_size ≤ (osfs_write buf ppos len ino data allocs).ino.i_size
        ∧ (0 < m → (osfs_write buf ppos len ino data allocs).ino.i_size
            = max ino.i_size (ppos + m))
        ∧ (m = 0 → (osfs_write buf ppos len ino data allocs).ino.i_size = ino.i_size))
    ∧ (∀ (buf : Nat → Option Nat) (ppos len : Nat) (ino : Osfs1Inode) (data : Nat → Nat)
        (allocs : List (Option Nat)) (m : Nat),
      (osfs1_write buf ppos len ino data allocs).res = Int.ofNat m →
        (osfs1_write buf ppos len ino data allocs).ino.i_size
          = max ino.i_size (ppos + m)) :=
  ⟨fun buf ppos len ino data allocs m h => osfs_write_count buf ppos len ino data allocs m h,
   fun buf ppos len ino data allocs m h => osfs1_write_count buf ppos len ino data allocs m h⟩

/-- Claim C4 witness: the amended theorem applied to one-byte writes on fresh
files in both variants. -/
theorem claim_C4_witness :
    (osfs_write (fun _ => some 9) 0 1 freshInode (fun _ => 0) [some 1]).ino.i_size
      = max freshInode.i_size (0 + 1)
    ∧ (osfs1_write (fun _ => some 9) 0 1 ⟨0, 0, 0⟩ (fun _ => 0) [some 1]).ino.i_size
      = max (⟨0, 0, 0⟩ : Osfs1Inode).i_size (0 + 1) :=
  ⟨(claim_C4.1 (fun _ => some 9) 0 1 freshInode (fun _ => 0) [some 1] 1
      (by decide)).2.1 (by decide),
   claim_C4.2 (fun _ => some 9) 0 1 ⟨0, 0, 0⟩ (fun _ => 0) [some 1] 1 (by decide)⟩

/-- Claim C5: whenever the multi-block write loop reaches a state whose
current logical block slot is UNALLOCATED and the allocator signals
exhaustion, the call returns immediately: the capacity-exhausted fault
-ENOSPC if no bytes have been written yet in this call, otherwise the
partial byte count written so far as a success; the state (extent map,
arena) is exactly the state already reached, so precisely the blocks
completed so far are newly recorded. -/
theorem claim_C5 (buf : Nat → Option Nat) (st : WState)
    (h0 : st.len ≠ 0)
    (hbi : st.ppos / BLOCK_SIZE < MAX_BLOCKS_PER_FILE)
    (hslot : st.ino.blocks.getD (st.ppos / BLOCK_SIZE) 0 = 0)
    (hA : st.allocs = [] ∨ ∃ rest, st.allocs = none :: rest) :
    writeLoop buf st
      = (some (if 0 < st.done then Int.ofNat st.done else -ENOSPC), st) := by
  unfold writeLoop
  obtain ⟨m, hm⟩ := Nat.exists_eq_succ_of_ne_zero h0
  rw [hm, writeLoopF_succ buf m st h0, writeIter_allocFail buf st hbi hslot hA]

/-- Claim C5 witness: the loop entered on a fresh file with one byte to
write and an exhausted allocator returns -ENOSPC and leaves the state
unchanged. -/
theorem claim_C5_witness :
    (⟨0, 1, 0, freshInode, fun _ => 0, []⟩ : WState).len ≠ 0
    ∧ writeLoop (fun _ => some 0) ⟨0, 1, 0, freshInode, fun _ => 0, []⟩
      = (some (-ENOSPC), ⟨0, 1, 0, freshInode, fun _ => 0, []⟩) :=
  ⟨by decide, by
    rw [claim_C5 (fun _ => some 0) ⟨0, 1, 0, freshInode, fun _ => 0, []⟩
      (by decide) (by decide) (by decide) (Or.inl rfl)]
    rfl⟩

/-- Claim C6 counterexample: a zero-length multi-block write returns byte
count 0 — zero bytes written — and still invokes the Metadata Updater,
contradicting the claimed "if and only if the call wrote a nonzero number
of bytes". -/
theorem claim_C6_cex :
    (osfs_write (fun _ => some 0) 0 0 freshInode (fun _ => 0) []).res = Int.ofNat 0
    ∧ (osfs_write (fun _ => some 0) 0 0 freshInode (fun _ => 0) []).touched = true :=
  ⟨rfl, rfl⟩

theorem osfs1_write_tail_touched (buf : Nat → Option Nat) (ppos len : Nat)
    (ino : Osfs1Inode) (data : Nat → Nat) (allocs : List (Option Nat)) :
    (osfs1_write_tail buf ppos len ino data allocs).touched = true
      ↔ 0 ≤ (osfs1_write_tail buf ppos len ino data allocs).res := by
  unfold osfs1_write_tail
  by_cases h1 : BLOCK_SIZE ≤ ppos
  · rw [if_pos h1]
    exact iff_of_false (by simp) (show ¬ (0 : Int) ≤ -ENOSPC by decide)
  · rw [if_neg h1]
    by_cases h2 : ((List.range (clamp1 ppos len)).any fun i => (buf i).isNone) = true
    · rw [if_pos h2]
      exact iff_of_false (by simp) (show ¬ (0 : Int) ≤ -EFAULT by decide)
    · rw [if_neg h2]
      refine iff_of_true rfl ?_
      show (0 : Int) ≤ Int.ofNat (clamp1 ppos len)
      rw [Int.ofNat_eq_natCast]
      exact Int.natCast_nonneg _

/-- Claim C6 (amended): the Metadata Updater (timestamps + dirty mark) runs
exactly once, after the loop, if and only if the call completes without an
early return: in the multi-block variant iff the returned value is the full
requested length (including zero-length requests); in the single-block
variant iff the call returns a byte count at all. Partial-progress returns
and faults skip it; reads never invoke it. -/
theorem claim_C6 :
    (∀ (buf : Nat → Option Nat) (ppos len : Nat) (ino : OsfsInode) (data : Nat → Nat)
        (allocs : List (Option Nat)),
      (osfs_write buf ppos len ino data allocs).touched = true
        ↔ (osfs_write buf ppos len ino data allocs).res = Int.ofNat len)
    ∧ (∀ (buf : Nat → Option Nat) (ppos len : Nat) (ino : Osfs1Inode) (data : Nat → Nat)
        (allocs : List (Option Nat)),
      (osfs1_write buf ppos len ino data allocs).touched = true
        ↔ 0 ≤ (osfs1_write buf ppos len ino data allocs).res)
    ∧ (∀ (dstOk : Nat → Bool) (ppos len : Nat) (ino : OsfsInode) (data : Nat → Nat),
      (osfs_read dstOk ppos len ino data).touched = false)
    ∧ (∀ (dstOk : Nat → Bool) (ppos len : Nat) (ino : Osfs1Inode) (data : Nat → Nat),
      (osfs1_read dstOk ppos len ino data).touched = false) := by
  refine ⟨?_, ?_, ?_, ?_⟩
  · intro buf ppos len ino data allocs
    have hs := writeLoopF_sizeP buf len ⟨ppos, len, 0, ino, data, allocs⟩ (Nat.le_refl _)
    rcases hw : writeLoopF buf len ⟨ppos, len, 0, ino, data, allocs⟩ with ⟨r1, st1⟩
    rw [hw] at hs
    unfold SizeP at hs
    dsimp only at hs
    obtain ⟨a, b, c⟩ := hs
    rcases r1 with _ | r0
    · have hW : osfs_write buf ppos len ino data allocs
          = ⟨Int.ofNat st1.done, st1.ppos, st1.ino, st1.data, st1.allocs, true⟩ := by
        unfold osfs_write writeLoop
        dsimp only
        rw [hw]
      rw [hW]
      dsimp only
      obtain ⟨b1, _, _⟩ := b rfl
      refine iff_of_true rfl ?_
      rw [b1]
      exact congrArg Int.ofNat (by omega)
    · have hW : osfs_write buf ppos len ino data allocs
          = ⟨r0, st1.ppos, st1.ino, st1.data, st1.allocs, false⟩ := by
        unfold osfs_write writeLoop
        dsimp only
        rw [hw]
      rw [hW]
      dsimp only
      refine iff_of_false (by simp) ?_
      intro hres
      obtain ⟨c1, c2⟩ := c r0 rfl
      rcases c1 with h | h | ⟨mm, hmm, hlt⟩
      · rw [h, show (-ENOSPC : Int) = -28 from rfl, Int.ofNat_eq_natCast] at hres
        omega
      · rw [h, show (-EFAULT : Int) = -14 from rfl, Int.ofNat_eq_natCast] at hres
        omega
      · rw [hmm] at hres
        have : mm = len := Int.ofNat.inj hres
        omega
  · intro buf ppos len ino data allocs
    unfold osfs1_write
    by_cases hib : ino.i_blocks = 0
    · rw [if_pos hib]
      rcases allocs with _ | ⟨a, rest⟩
      · exact iff_of_false (show ¬ (false = true) by simp)
          (show ¬ (0 : Int) ≤ -ENOSPC by decide)
      · rcases a with _ | p
        · exact iff_of_false (show ¬ (false = true) by simp)
            (show ¬ (0 : Int) ≤ -ENOSPC by decide)
        · exact osfs1_write_tail_touched buf ppos len ⟨p, 1, ino.i_size⟩
            (zeroBlock data p) rest
    · rw [if_neg hib]
      exact osfs1_write_tail_touched buf ppos len ino data allocs
  · intro dstOk ppos len ino data
    unfold osfs_read
    split
    · rfl
    · split <;> rfl
  · intro dstOk ppos len ino data
    unfold osfs1_read
    split
    · rfl
    · split
      · rfl
      · split <;> rfl


/-- Claim C7: a read whose starting offset is at or past the current logical
size returns 0 bytes (no output bytes, position unchanged), not an error,
for every logical size including 0, in both variants. -/
theorem claim_C7 :
    (∀ (dstOk : Nat → Bool) (ppos len : Nat) (ino : OsfsInode) (data : Nat → Nat),
      ino.i_size ≤ ppos →
        (osfs_read dstOk ppos len ino data).res = 0
        ∧ (osfs_read dstOk ppos len ino data).out = []
        ∧ (osfs_read dstOk ppos len ino data).ppos = ppos)
    ∧ (∀ (dstOk : Nat → Bool) (ppos len : Nat) (ino : Osfs1Inode) (data : Nat → Nat),
      ino.i_size ≤ ppos →
        (osfs1_read dstOk ppos len ino data).res = 0
        ∧ (osfs1_read dstOk ppos len ino data).out = []
        ∧ (osfs1_read dstOk ppos len ino data).ppos = ppos) := by
  constructor
  · intro dstOk ppos len ino data h
    unfold osfs_read
    rw [if_pos h]
    exact ⟨rfl, rfl, rfl⟩
  · intro dstOk ppos len ino data h
    unfold osfs1_read
    by_cases hib : ino.i_blocks = 0
    · rw [if_pos hib]
      exact ⟨rfl, rfl, rfl⟩
    · rw [if_neg hib, if_pos h]
      exact ⟨rfl, rfl, rfl⟩

/-- Claim C7 witness: reading an empty file at offset 0 in both variants. -/
theorem claim_C7_witness :
    freshInode.i_size ≤ 0
    ∧ (osfs_read (fun _ => true) 0 5 freshInode (fun _ => 0)).res = 0
    ∧ (osfs1_read (fun _ => true) 0 5 ⟨0, 0, 0⟩ (fun _ => 0)).res = 0 :=
  ⟨by decide,
   (claim_C7.1 (fun _ => true) 0 5 freshInode (fun _ => 0) (by decide)).1,
   (claim_C7.2 (fun _ => true) 0 5 ⟨0, 0, 0⟩ (fun _ => 0) (by decide)).1⟩

/-- Claim C9: if any per-segment copy to the destination buffer fails (some
byte of the clamped destination range is inaccessible), the read returns
-EFAULT and no partial byte count, even when earlier segments were copied
successfully; in both variants. -/
theorem claim_C9 :
    (∀ (dstOk : Nat → Bool) (ppos len : Nat) (ino : OsfsInode) (data : Nat → Nat),
      ppos < ino.i_size →
      (∃ j, j < rclamp ino.i_size ppos len ∧ dstOk j = false) →
      (osfs_read dstOk ppos len ino data).res = -EFAULT)
    ∧ (∀ (dstOk : Nat → Bool) (ppos len : Nat) (ino : Osfs1Inode) (data : Nat → Nat),
      ino.i_blocks ≠ 0 → ppos < ino.i_size →
      (∃ j, j < rclamp ino.i_size ppos len ∧ dstOk j = false) →
      (osfs1_read dstOk ppos len ino data).res = -EFAULT) := by
  constructor
  · intro dstOk ppos len ino data hlt hex
    obtain ⟨j, hj, hjb⟩ := hex
    unfold osfs_read
    rw [if_neg (by omega)]
    have hf := readLoopF_fault dstOk ino data (rclamp ino.i_size ppos len)
      ⟨ppos, rclamp ino.i_size ppos len, 0, []⟩ (Nat.le_refl _)
      ⟨j, by dsimp only; omega, by dsimp only; rw [Nat.zero_add]; exact hjb⟩
    rcases hrl : readLoopF dstOk ino data (rclamp ino.i_size ppos len)
        ⟨ppos, rclamp ino.i_size ppos len, 0, []⟩ with ⟨r1, st1⟩
    rw [hrl] at hf
    dsimp only at hf
    rcases r1 with _ | r0
    · exact absurd hf (by simp)
    · exact Option.some.inj hf
  · intro dstOk ppos len ino data hib hlt hex
    obtain ⟨j, hj, hjb⟩ := hex
    unfold osfs1_read
    rw [if_neg hib, if_neg (by omega),
      if_pos (List.any_eq_true.mpr ⟨j, List.mem_range.mpr hj, by simp [hjb]⟩)]

/-- Claim C9 witness: a one-byte read with an entirely inaccessible
destination buffer faults in both variants. -/
theorem claim_C9_witness :
    (0 : Nat) < (⟨[1, 0, 0, 0, 0], 1, 1⟩ : OsfsInode).i_size
    ∧ (osfs_read (fun _ => false) 0 1 ⟨[1, 0, 0, 0, 0], 1, 1⟩ (fun _ => 0)).res = -EFAULT
    ∧ (osfs1_read (fun _ => false) 0 1 ⟨1, 1, 1⟩ (fun _ => 0)).res = -EFAULT :=
  ⟨by decide,
   claim_C9.1 (fun _ => false) 0 1 ⟨[1, 0, 0, 0, 0], 1, 1⟩ (fun _ => 0) (by decide)
     ⟨0, by decide, rfl⟩,
   claim_C9.2 (fun _ => false) 0 1 ⟨1, 1, 1⟩ (fun _ => 0) (by decide) (by decide)
     ⟨0, by decide, rfl⟩⟩

/-- Claim C10: a read call never mutates the extent map (blocks array and
allocated-block count), the logical size, or any byte of the arena, in
either variant and on every path (byte count, 0, or fault); only the
returned position cursor differs. -/
theorem claim_C10 :
    (∀ (dstOk : Nat → Bool) (ppos len : Nat) (ino : OsfsInode) (data : Nat → Nat),
      (osfs_read dstOk ppos len ino data).ino = ino
      ∧ (osfs_read dstOk ppos len ino data).data = data)
    ∧ (∀ (dstOk : Nat → Bool) (ppos len : Nat) (ino : Osfs1Inode) (data : Nat → Nat),
      (osfs1_read dstOk ppos len ino data).ino = ino
      ∧ (osfs1_read dstOk ppos len ino data).data = data) := by
  constructor
  · intro dstOk ppos len ino data
    exact osfs_read_frame dstOk ppos len ino data
  · intro dstOk ppos len ino data
    unfold osfs1_read
    split
    · exact ⟨rfl, rfl⟩
    · split
      · exact ⟨rfl, rfl⟩
      · split
        · exact ⟨rfl, rfl⟩
        · exact ⟨rfl, rfl⟩


/-- Claim C8: whenever a write allocates a block into an UNALLOCATED slot,
the granted physical index is recorded in that slot, the allocated-block
count is incremented by one, and the whole new block is zero-filled before
the payload copy: after the allocating step every byte of the new block is
either a byte of this write's payload (inside the copied segment) or zero —
never stale arena data — and on a copy fault the block is entirely zero. In
the single-block variant the same holds around its up-front allocation. -/
theorem claim_C8 :
    (∀ (buf : Nat → Option Nat) (st : WState) (p : Nat) (rest : List (Option Nat)),
      st.ppos / BLOCK_SIZE < MAX_BLOCKS_PER_FILE →
      st.ino.blocks.length = MAX_BLOCKS_PER_FILE →
      st.ino.blocks.getD (st.ppos / BLOCK_SIZE) 0 = 0 →
      st.allocs = some p :: rest →
      (segFaults buf st = true →
        writeIter buf st
          = .inl (-EFAULT, allocApply st (st.ppos / BLOCK_SIZE) p rest)
        ∧ (allocApply st (st.ppos / BLOCK_SIZE) p rest).ino.blocks.getD
            (st.ppos / BLOCK_SIZE) 0 = p
        ∧ (allocApply st (st.ppos / BLOCK_SIZE) p rest).ino.i_blocks
            = st.ino.i_blocks + 1
        ∧ (∀ j, j < BLOCK_SIZE →
            (allocApply st (st.ppos / BLOCK_SIZE) p rest).data (p * BLOCK_SIZE + j)
              = 0))
      ∧ (segFaults buf st = false →
        writeIter buf st
          = .inr (segApply buf (allocApply st (st.ppos / BLOCK_SIZE) p rest)
              (st.ppos / BLOCK_SIZE))
        ∧ (segApply buf (allocApply st (st.ppos / BLOCK_SIZE) p rest)
            (st.ppos / BLOCK_SIZE)).ino.blocks.getD (st.ppos / BLOCK_SIZE) 0 = p
        ∧ (segApply buf (allocApply st (st.ppos / BLOCK_SIZE) p rest)
            (st.ppos / BLOCK_SIZE)).ino.i_blocks = st.ino.i_blocks + 1
        ∧ (∀ j, j < BLOCK_SIZE →
            (segApply buf (allocApply st (st.ppos / BLOCK_SIZE) p rest)
              (st.ppos / BLOCK_SIZE)).data (p * BLOCK_SIZE + j)
              = if st.ppos % BLOCK_SIZE ≤ j
                  ∧ j < st.ppos % BLOCK_SIZE + segLen st.ppos st.len
                then (buf (st.done + (j - st.ppos % BLOCK_SIZE))).getD 0
                else 0)))
    ∧ (∀ (buf : Nat → Option Nat) (ppos len : Nat) (ino : Osfs1Inode)
        (data : Nat → Nat) (p : Nat) (rest : List (Option Nat)),
      ino.i_blocks = 0 →
      (osfs1_write buf ppos len ino data (some p :: rest)).ino.i_block = p
      ∧ (osfs1_write buf ppos len ino data (some p :: rest)).ino.i_blocks = 1
      ∧ (BLOCK_SIZE ≤ ppos →
          ∀ j, j < BLOCK_SIZE →
            (osfs1_write buf ppos len ino data (some p :: rest)).data
              (p * BLOCK_SIZE + j) = 0)
      ∧ (ppos < BLOCK_SIZE →
          ((List.range (clamp1 ppos len)).any fun i => (buf i).isNone) = true →
          ∀ j, j < BLOCK_SIZE →
            (osfs1_write buf ppos len ino data (some p :: rest)).data
              (p * BLOCK_SIZE + j) = 0)
      ∧ (ppos < BLOCK_SIZE →
          ((List.range (clamp1 ppos len)).any fun i => (buf i).isNone) = false →
          ∀ j, j < BLOCK_SIZE →
            (osfs1_write buf ppos len ino data (some p :: rest)).data
              (p * BLOCK_SIZE + j)
              = if ppos ≤ j ∧ j < ppos + clamp1 ppos len
                then (buf (j - ppos)).getD 0
                else 0)) := by
  constructor
  · intro buf st p rest hbi hblen hslot hallocs
    constructor
    · intro hf
      have hfA : segFaults buf (allocApply st (st.ppos / BLOCK_SIZE) p rest) = true := by
        rw [segFaults_allocApply]
        exact hf
      refine ⟨writeIter_allocFault buf st p rest hbi hslot hallocs hfA, ?_, rfl, ?_⟩
      · simp only [allocApply]
        rw [getD_set, if_pos ⟨rfl, by omega⟩]
      · intro j hj
        exact zeroBlock_in st.data p _ (Nat.le_add_right _ _) (by omega)
    · intro hf
      have hfA : segFaults buf (allocApply st (st.ppos / BLOCK_SIZE) p rest) = false := by
        rw [segFaults_allocApply]
        exact hf
      have hphy : (allocApply st (st.ppos / BLOCK_SIZE) p rest).ino.blocks.getD
          (st.ppos / BLOCK_SIZE) 0 = p := by
        simp only [allocApply]
        rw [getD_set, if_pos ⟨rfl, by omega⟩]
      refine ⟨writeIter_allocCont buf st p rest hbi hslot hallocs hfA, ?_, ?_, ?_⟩
      · simp only [segApply, sizeBump_blocks]
        exact hphy
      · simp only [segApply, sizeBump_count, allocApply]
      · intro j hj
        have hsegoff := segLen_off st.ppos st.len
        have hdata : (segApply buf (allocApply st (st.ppos / BLOCK_SIZE) p rest)
            (st.ppos / BLOCK_SIZE)).data
            = copyIn (zeroBlock st.data p)
                (p * BLOCK_SIZE + st.ppos % BLOCK_SIZE) buf st.done
                (segLen st.ppos st.len) := by
          simp only [segApply]
          rw [hphy]
          simp only [allocApply]
        rw [hdata]
        by_cases hjin : st.ppos % BLOCK_SIZE ≤ j
            ∧ j < st.ppos % BLOCK_SIZE + segLen st.ppos st.len
        · rw [if_pos hjin, copyIn_in _ _ _ _ _ _ (by omega) (by omega)]
          exact congrArg (fun x => (buf x).getD 0) (by omega)
        · rw [if_neg hjin, copyIn_out _ _ _ _ _ _ (by omega)]
          exact zeroBlock_in st.data p _ (Nat.le_add_right _ _) (by omega)
  · intro buf ppos len ino data p rest hib
    unfold osfs1_write
    rw [if_pos hib]
    dsimp only
    unfold osfs1_write_tail
    by_cases h1 : BLOCK_SIZE ≤ ppos
    · rw [if_pos h1]
      refine ⟨rfl, rfl, ?_, fun hc => absurd hc (by omega), fun hc => absurd hc (by omega)⟩
      intro _ j hj
      exact zeroBlock_in data p _ (Nat.le_add_right _ _) (by omega)
    · rw [if_neg h1]
      by_cases h2 : ((List.range (clamp1 ppos len)).any fun i => (buf i).isNone) = true
      · rw [if_pos h2]
        refine ⟨rfl, rfl, fun hc => absurd hc (by omega), ?_, ?_⟩
        · intro _ _ j hj
          exact zeroBlock_in data p _ (Nat.le_add_right _ _) (by omega)
        · intro _ hff
          exfalso
          rw [h2] at hff
          simp at hff
      · rw [if_neg h2]
        refine ⟨by dsimp only; split <;> rfl, by dsimp only; split <;> rfl,
          fun hc => absurd hc (by omega), ?_, ?_⟩
        · intro _ htt
          exfalso
          rw [htt] at h2
          exact h2 rfl
        · intro _ _ j hj
          show copyIn (zeroBlock data p) (p * BLOCK_SIZE + ppos) buf 0
            (clamp1 ppos len) (p * BLOCK_SIZE + j) = _
          have hclb : ppos + clamp1 ppos len ≤ BLOCK_SIZE := by
            unfold clamp1
            split <;> omega
          by_cases hjin : ppos ≤ j ∧ j < ppos + clamp1 ppos len
          · rw [if_pos hjin, copyIn_in _ _ _ _ _ _ (by omega) (by omega)]
            exact congrArg (fun x => (buf x).getD 0) (by omega)
          · rw [if_neg hjin, copyIn_out _ _ _ _ _ _ (by omega)]
            exact zeroBlock_in data p _ (Nat.le_add_right _ _) (by omega)

/-- Claim C8 witness: the theorem applied to a one-byte write into the first
(unallocated) slot of a fresh file with granted physical block 2, and to the
single-block variant's up-front allocation. -/
theorem claim_C8_witness :
    segFaults (fun _ => some 5) ⟨0, 1, 0, freshInode, fun _ => 0, [some 2]⟩ = false
    ∧ (segApply (fun _ => some 5)
        (allocApply ⟨0, 1, 0, freshInode, fun _ => 0, [some 2]⟩ 0 2 []) 0).ino.i_blocks
        = freshInode.i_blocks + 1
    ∧ (osfs1_write (fun _ => some 5) 0 1 ⟨0, 0, 0⟩ (fun _ => 0)
        (some 2 :: [])).ino.i_blocks = 1 :=
  ⟨by decide,
   ((claim_C8.1 (fun _ => some 5) ⟨0, 1, 0, freshInode, fun _ => 0, [some 2]⟩ 2 []
      (by decide) (by decide) (by decide) rfl).2 (by decide)).2.2.1,
   (claim_C8.2 (fun _ => some 5) 0 1 ⟨0, 0, 0⟩ (fun _ => 0) 2 [] rfl).2.1⟩


/-- Claim C6 witness: a completed one-byte write marks the inode metadata
update as executed. -/
theorem claim_C6_witness :
    (osfs_write (fun _ => some 3) 0 1 freshInode (fun _ => 0) [some 1]).touched
      = true :=
  (claim_C6.1 (fun _ => some 3) 0 1 freshInode (fun _ => 0) [some 1]).mpr (by decide)

/-- Claim C10 witness: a concrete one-byte read leaves the inode exactly as
it was. -/
theorem claim_C10_witness :
    (osfs_read (fun _ => true) 0 1 ⟨[1, 0, 0, 0, 0], 1, 1⟩ (fun _ => 0)).ino
      = ⟨[1, 0, 0, 0, 0], 1, 1⟩ :=
  (claim_C10.1 (fun _ => true) 0 1 ⟨[1, 0, 0, 0, 0], 1, 1⟩ (fun _ => 0)).1

end Osfs
